import Mathlib

/-!
Verification of the incremental multi-source sync engine (wl-reporting).

Shallow embedding of:
  * `src/lib/db.js` — the two sink backends: the Google-Sheets flat upsert
    (read existing keys, append unseen rows) and the Postgres
    `INSERT .. ON CONFLICT .. DO UPDATE` upsert;
  * `src/lib/util.js` — `parseRange`, `getCursor`, `setCursor` (and the
    disabled cursor variant of the Sheets build);
  * `src/netlify/functions/helpers/run-etl.js` — the orchestrator `runEtls`;
  * `src/lib/etl.js` — the missing-credential guards, the Meta/TikTok
    normalizer derived metrics, and the Steam per-date highwater-mark loop.

Modelling conventions: JS cell values are modelled in their stored string
form (Google Sheets stores text; key joins stringify); SQL NULL and JS
`undefined`/`null` are `Option.none`; machine time is milliseconds since
epoch as `Int`; fallible code returns `Except`; network interaction is
abstracted as an explicit response oracle passed to the function.
-/

namespace WL

/-- A cell value in its stored/compared string form. -/
abbrev Val := String

/-- A row object: association list column name → value.
A missing column is JS `undefined` (lookup returns `none`). -/
abbrev Row := List (String × Val)

/-- `row[col]` / `row.get(col)`: first binding for the column, if any. -/
def getCol (r : Row) (c : String) : Option Val :=
  (r.find? (fun p => p.1 == c)).map (fun p => p.2)

/-- `conflictCols.map(col => lookup(col)).join('||')`; in `Array.join`,
`undefined` renders as the empty string. -/
def joinKey (conflictCols : List String) (lookup : String → Option Val) : String :=
  String.intercalate "||" (conflictCols.map (fun c => (lookup c).getD ""))

/-- Key of a batch row / stored sheet row under the conflict columns
(`src/lib/db.js` Sheets backend, lines 68 and 74). -/
def rowKey (conflictCols : List String) (r : Row) : String :=
  joinKey conflictCols (getCol r)

/-! ### Google-Sheets sink backend (`src/lib/db.js`, Sheets variant) -/

/-- `TAB_MAPPING` from `src/lib/db.js`. -/
def TAB_MAPPING : List (String × String) :=
  [("stripe_orders", "Stripe"),
   ("meta_insights", "Meta"),
   ("tiktok_insights", "TikTok"),
   ("mailerlite_subscribers", "MailerLite"),
   ("mailerlite_group_memberships", "MailerLite_Groups"),
   ("steam_sales", "Steam_Sales")]

/-- `TAB_MAPPING[table] || table`. -/
def tabNameOf (table : String) : String :=
  (((TAB_MAPPING.find? (fun p => p.1 == table)).map (fun p => p.2)).getD table)

/-- The spreadsheet: tab title → stored rows (`doc.sheetsByTitle`). -/
abbrev Doc := List (String × List Row)

/-- `doc.sheetsByTitle[tab]`. -/
def docGet (d : Doc) (tab : String) : Option (List Row) :=
  ((d.find? (fun p => p.1 == tab)).map (fun p => p.2))

/-- Replace the contents of an existing tab (tab titles are unique keys). -/
def docSet (d : Doc) (tab : String) (rows : List Row) : Doc :=
  d.map (fun p => if p.1 == tab then (tab, rows) else p)

/-- The `sheetRow` built for one incoming row: its projection onto
`dataCols` (a value that is a JS object is stored via `JSON.stringify`;
values are modelled already in stored string form). -/
def projectRow (dataCols : List String) (r : Row) : Row :=
  dataCols.filterMap (fun c => (getCol r c).map (fun v => (c, v)))

/-- The skip-existing loop of the Sheets upsert: walk the batch in order,
keeping only rows whose key is not in `seen`, and extend `seen` as rows
are kept (`existingKeys.add(key)` inside the loop). -/
def sheetsUpsertLoop (cc dc : List String) (seen : List String) :
    List Row → List Row
  | [] => []
  | r :: rest =>
    let k := rowKey cc r
    if seen.contains k then sheetsUpsertLoop cc dc seen rest
    else projectRow dc r :: sheetsUpsertLoop cc dc (k :: seen) rest

/-- `upsert(table, conflictCols, dataCols, rows)` of the Sheets backend:
empty batch is a no-op; a missing tab logs and returns `rowCount: 0`;
otherwise read existing rows, compute their keys, append only unseen
batch rows, and report how many were appended. -/
def sheetsUpsert (doc : Doc) (table : String) (cc dc : List String)
    (rows : List Row) : Doc × Nat :=
  if rows.isEmpty then (doc, 0)
  else
    let tab := tabNameOf table
    match docGet doc tab with
    | none => (doc, 0)
    | some existing =>
      let existingKeys := existing.map (rowKey cc)
      let newRows := sheetsUpsertLoop cc dc existingKeys rows
      if newRows.isEmpty then (doc, 0)
      else (docSet doc tab (existing ++ newRows), newRows.length)

/-! ### Postgres sink backend (`src/lib/db.js`, Postgres variant)

The generated statement is
`INSERT INTO t (allCols) VALUES .. ON CONFLICT (conflictCols) DO UPDATE SET c=EXCLUDED.c ..`.
Its semantics here follow PostgreSQL's documented behaviour:
  * a VALUES tuple conflicts with a stored row when their projections onto
    the conflict columns are equal with no NULL component (NULLs are
    distinct in a unique index, so a NULL key never conflicts);
  * a conflicting tuple updates the stored row's non-key data columns to
    the EXCLUDED (proposed) values;
  * if a tuple conflicts with a row already inserted or updated by the
    same command, the whole statement fails with a cardinality violation
    ("ON CONFLICT DO UPDATE command cannot affect row a second time") and
    stores nothing (statements are atomic);
  * the reported `rowCount` counts rows inserted or updated.
-/

/-- A stored relational row: column → value, `none` = SQL NULL.
Rows written by `pgUpsert` bind every inserted column exactly once. -/
abbrev PgRow := List (String × Option Val)

/-- Read a column of a stored row; an absent binding reads as NULL. -/
def pgread (r : PgRow) (c : String) : Option Val :=
  match r.find? (fun p => p.1 == c) with
  | some p => p.2
  | none => none

/-- Set a column: replace its bindings in place, or append if absent. -/
def setPgCol (r : PgRow) (c : String) (v : Option Val) : PgRow :=
  if (r.find? (fun p => p.1 == c)).isSome then
    r.map (fun p => if p.1 == c then (c, v) else p)
  else r ++ [(c, v)]

/-- `[...new Set([...conflictCols, ...cols])]`: first-occurrence dedup. -/
def jsDedupAux (seen : List String) : List String → List String
  | [] => []
  | x :: xs =>
    if seen.contains x then jsDedupAux seen xs
    else x :: jsDedupAux (x :: seen) xs

/-- JS `Set`-based dedup keeping first occurrences. -/
def jsDedup (l : List String) : List String := jsDedupAux [] l

/-- The VALUES tuple pushed for one batch row: `row[c] ?? null` for each
column of `allCols`, in order. -/
def pgRowOf (allCols : List String) (r : Row) : PgRow :=
  allCols.map (fun c => (c, getCol r c))

/-- Projection of a stored row onto the conflict columns. -/
def pgKey (cc : List String) (r : PgRow) : List (Option Val) :=
  cc.map (pgread r)

/-- `DO UPDATE SET c=EXCLUDED.c` for each update column. -/
def updateCols (u : List String) (sr nr : PgRow) : PgRow :=
  u.foldl (fun r c => setPgCol r c (pgread nr c)) sr

/-- Apply the DO-UPDATE to the first stored row whose key equals the
proposed tuple's key; `none` when no stored row conflicts. -/
def pgMerge (cc u : List String) (nr : PgRow) : List PgRow → Option (List PgRow)
  | [] => none
  | r :: rs =>
    if pgKey cc r == pgKey cc nr then some (updateCols u r nr :: rs)
    else (pgMerge cc u nr rs).map (fun t => r :: t)

/-- Execution state of one INSERT command: current table, keys already
affected by this command, and the running affected-row count. -/
structure PgExec where
  table : List PgRow
  touched : List (List (Option Val))
  count : Nat
deriving DecidableEq, Repr

/-- Process one VALUES tuple. A tuple whose key has a NULL component
never conflicts and is inserted outright. -/
def pgApplyRow (cc u : List String) (st : PgExec) (nr : PgRow) :
    Except String PgExec :=
  let k := pgKey cc nr
  if k.all (fun v => v.isSome) then
    if st.touched.contains k then
      .error "ON CONFLICT DO UPDATE command cannot affect row a second time"
    else
      match pgMerge cc u nr st.table with
      | some t2 => .ok ⟨t2, k :: st.touched, st.count + 1⟩
      | none => .ok ⟨st.table ++ [nr], k :: st.touched, st.count + 1⟩
  else .ok ⟨st.table ++ [nr], st.touched, st.count + 1⟩

/-- Process the VALUES tuples in order; any error aborts the statement. -/
def pgRun (cc u : List String) (st : PgExec) : List PgRow → Except String PgExec
  | [] => .ok st
  | nr :: rest =>
    match pgApplyRow cc u st nr with
    | .error e => .error e
    | .ok st2 => pgRun cc u st2 rest

/-- `upsert(table, conflictCols, dataCols, rows)` of the Postgres backend:
empty batch short-circuits; otherwise one INSERT of all tuples with
ON CONFLICT on `conflictCols` updating `dataCols \ conflictCols`.
On error the statement is atomic: nothing is stored. -/
def pgUpsert (t : List PgRow) (cc dc : List String) (rows : List Row) :
    Except String (List PgRow × Nat) :=
  if rows.isEmpty then .ok (t, 0)
  else
    let allCols := jsDedup (cc ++ dc)
    let u := dc.filter (fun c => !cc.contains c)
    (pgRun cc u ⟨t, [], 0⟩ (rows.map (pgRowOf allCols))).map
      (fun st => (st.table, st.count))

/-! ### Range resolver and cursor store (`src/lib/util.js`) -/

/-- Milliseconds in one day; `dayjs.subtract(30, "day")` in UTC mode is
exactly 30 of these. -/
def MS_PER_DAY : Int := 86400000

/-- A resolved window; instants are ms since epoch (ISO rendering is a
monotone bijection and is not modelled). -/
structure SyncWindow where
  sinceUtc : Int
  untilUtc : Int
deriving DecidableEq, Repr

/-- `parseRange(query)` (`src/lib/util.js` lines 19–31):
`end = until ?? now(); start = since ?? end.subtract(30, "day")`. -/
def parseRange (since? until? : Option Int) (now : Int) : SyncWindow :=
  let e := until?.getD now
  let s := since?.getD (e - 30 * MS_PER_DAY)
  ⟨s, e⟩

/-- `getCursor(source)`: `SELECT since FROM etl_cursors WHERE source=$1`,
returning `rows[0].since` when a row matches, else null. -/
def getCursor (ct : List PgRow) (source : String) : Option Val :=
  match ct.find? (fun r => pgread r "source" == some source) with
  | some r => pgread r "since"
  | none => none

/-- `setCursor(source, sinceIso)`:
`upsert("etl_cursors", ["source"], ["source","since"], [{source, since}])`
against the relational backend. The single-row batch with a non-null key
never errors; the error arm is unreachable and keeps the state. -/
def setCursor (ct : List PgRow) (source sinceIso : String) : List PgRow :=
  match pgUpsert ct ["source"] ["source", "since"]
      [[("source", source), ("since", sinceIso)]] with
  | .ok (t, _) => t
  | .error _ => ct

/-- The disabled cursor helpers of the Sheets build
(`src/unnamed/part_000` lines 568–574): `getCursor` always null,
`setCursor` a no-op. -/
def getCursorDisabled (_source : String) : Option Val := none

/-- Disabled `setCursor`: returns null and persists nothing. -/
def setCursorDisabled (u : Unit) (_source _sinceIso : String) : Unit := u

/-! ### Orchestrator (`src/netlify/functions/helpers/run-etl.js`) -/

/-- A per-source result value `{ ok, rows?, msg?, .. }` as the
orchestrator observes it. -/
structure EtlResult where
  ok : Bool
  rows : Option Nat := none
  msg : Option String := none
deriving DecidableEq, Repr

/-- `.catch(e => ({ ok: false, msg: e.message }))`: a raised error is
converted to a failed result value. -/
def caught (e : Except String EtlResult) : EtlResult :=
  match e with
  | .ok r => r
  | .error m => ⟨false, none, some m⟩

/-- The keys of `ETL_MAP`. -/
def ETL_SOURCES : List String := ["stripe", "meta", "tiktok", "mailerlite", "steam"]

/-- JS object property assignment `results[source] = res`: overwrite in
place, or append a new property. -/
def jsSet (m : List (String × EtlResult)) (k : String) (v : EtlResult) :
    List (String × EtlResult) :=
  if (m.find? (fun p => p.1 == k)).isSome then
    m.map (fun p => if p.1 == k then (k, v) else p)
  else m ++ [(k, v)]

/-- JS object property read `results[source]`. -/
def jsGet (m : List (String × EtlResult)) (k : String) : Option EtlResult :=
  (m.find? (fun p => p.1 == k)).map (fun p => p.2)

/-- A pluggable cursor store, so the orchestrator can be run against the
relational helpers or the disabled Sheets-build helpers. -/
structure CursorBackend (σ : Type) where
  get : σ → String → Option Val
  set : σ → String → String → σ

/-- The relational cursor store of `src/lib/util.js`. -/
def pgCursorBackend : CursorBackend (List PgRow) := ⟨getCursor, setCursor⟩

/-- The disabled cursor store of the Sheets build. -/
def disabledCursorBackend : CursorBackend Unit :=
  ⟨fun _ => getCursorDisabled, setCursorDisabled⟩

/-- `runEtls(range, sources, { persistCursor })`: for each requested
source with a registered runner, invoke it, catch any raised error into
`{ok:false, msg}`, record the result, and advance the cursor to
`range.untilUtc` exactly when persistence was requested and the result is
ok. `runners` abstracts `ETL_MAP[source](range)` (the range is fixed for
the whole call); an unknown source is skipped (`continue`). -/
def runEtls {σ : Type} (cb : CursorBackend σ)
    (runners : String → Except String EtlResult)
    (untilUtc : String) (sources : List String) (persistCursor : Bool)
    (results : List (String × EtlResult)) (cs : σ) :
    List (String × EtlResult) × σ :=
  match sources with
  | [] => (results, cs)
  | source :: rest =>
    if ETL_SOURCES.contains source then
      let res := caught (runners source)
      let cs2 := if persistCursor && res.ok then cb.set cs source untilUtc else cs
      runEtls cb runners untilUtc rest persistCursor (jsSet results source res) cs2
    else runEtls cb runners untilUtc rest persistCursor results cs

/-! ### Provider-client guards (`src/lib/etl.js`) -/

/-- The environment variables the guarded clients consult. -/
structure Env where
  STRIPE_SECRET_KEY : Option String := none
  STEAM_PUBLISHER_KEY : Option String := none
  STEAM_SALES_API_URL : Option String := none
  STEAM_APP_ID : Option String := none
deriving DecidableEq, Repr

/-- `etlStripe` (`src/lib/etl.js` lines 380–382): with no
`STRIPE_SECRET_KEY` it returns `{ ok:false, msg }` without running the
pipeline; otherwise the paginated fetch/upsert pipeline (abstracted as
`pipeline`, its network and sink effects outside this claim) runs with
the key. -/
def etlStripe (env : Env) (pipeline : String → Except String EtlResult) :
    Except String EtlResult :=
  match env.STRIPE_SECRET_KEY with
  | none => .ok ⟨false, none, some "Missing STRIPE_SECRET_KEY"⟩
  | some key => pipeline key

/-- `etlSteamSalesApi` guard (`src/lib/etl.js` lines 739–745): with any
of key, base URL or app ids absent it returns `{ ok:false, msg }`;
otherwise the two-phase pipeline runs. -/
def etlSteamSalesApi (env : Env)
    (pipeline : String → String → String → Except String EtlResult) :
    Except String EtlResult :=
  match env.STEAM_PUBLISHER_KEY, env.STEAM_SALES_API_URL, env.STEAM_APP_ID with
  | some key, some baseUrl, some appIds => pipeline key baseUrl appIds
  | none, _, _ => .ok ⟨false, none, some "Steam Sales API disabled or missing env variables"⟩
  | _, none, _ => .ok ⟨false, none, some "Steam Sales API disabled or missing env variables"⟩
  | _, _, none => .ok ⟨false, none, some "Steam Sales API disabled or missing env variables"⟩

/-! ### Normalizer derived metrics (`src/lib/etl.js`, `etlMeta`/`etlTikTok`)

Raw numeric provider fields are modelled as exact rationals (the API
delivers decimal strings; JS coerces them numerically in `>` and `/`). -/

/-- A raw Meta ad-insight record (the fields the normalizer reads). -/
structure MetaRaw where
  date_start : Option String := none
  campaign_id : Option String := none
  adset_id : Option String := none
  ad_id : Option String := none
  impressions : ℚ := 0
  clicks : ℚ := 0
  spend : ℚ := 0
deriving DecidableEq, Repr

/-- A normalized `meta_insights` row (derived-metric fields). -/
structure MetaRow where
  date : Option String
  campaign_id : Option String
  adset_id : Option String
  ad_id : Option String
  impressions : ℚ
  clicks : ℚ
  spend : ℚ
  cpm : Option ℚ
  cpc : Option ℚ
deriving DecidableEq, Repr

/-- The `etlMeta` row mapping (`src/lib/etl.js` lines 510–525):
`cpm: r.impressions > 0 ? (r.spend / r.impressions) * 1000 : null`,
`cpc: r.clicks > 0 ? r.spend / r.clicks : null`. -/
def metaNormalize (r : MetaRaw) : MetaRow :=
  { date := r.date_start
    campaign_id := r.campaign_id
    adset_id := r.adset_id
    ad_id := r.ad_id
    impressions := r.impressions
    clicks := r.clicks
    spend := r.spend
    cpm := if 0 < r.impressions then some ((r.spend / r.impressions) * 1000) else none
    cpc := if 0 < r.clicks then some (r.spend / r.clicks) else none }

/-- A raw TikTok report record (the fields the normalizer reads). -/
structure TikTokRaw where
  stat_time_day : Option String := none
  campaign_id : Option String := none
  adgroup_id : Option String := none
  ad_id : Option String := none
  impressions : ℚ := 0
  clicks : ℚ := 0
  spend : ℚ := 0
  conversion : ℚ := 0
  conversions_value : ℚ := 0
deriving DecidableEq, Repr

/-- A normalized `tiktok_insights` row (derived-metric fields). -/
structure TikTokRow where
  date : Option String
  campaign_id : Option String
  adgroup_id : Option String
  ad_id : Option String
  impressions : ℚ
  clicks : ℚ
  spend : ℚ
  conversions : ℚ
  conversion_value : ℚ
  cpm : Option ℚ
  cpc : Option ℚ
deriving DecidableEq, Repr

/-- The `etlTikTok` row mapping (`src/lib/etl.js` lines 592–610): same
cpm/cpc guards as Meta. -/
def tiktokNormalize (r : TikTokRaw) : TikTokRow :=
  { date := r.stat_time_day
    campaign_id := r.campaign_id
    adgroup_id := r.adgroup_id
    ad_id := r.ad_id
    impressions := r.impressions
    clicks := r.clicks
    spend := r.spend
    conversions := r.conversion
    conversion_value := r.conversions_value
    cpm := if 0 < r.impressions then some ((r.spend / r.impressions) * 1000) else none
    cpc := if 0 < r.clicks then some (r.spend / r.clicks) else none }

/-! ### Steam per-date highwater-mark loop (`src/lib/etl.js` lines 771–828) -/

/-- One `GetDetailedSales` response for a date: the parsed record list
(`responseObj.results || responseObj.data || []`) and
`responseObj.max_id || 0`. Records are abstract: the loop's control flow
reads only the list's emptiness and `max_id`. -/
structure SteamResp (α : Type) where
  results : List α
  maxId : Nat
deriving Repr

/-- The per-date detail loop: starting from `highwatermarkId = 0`, fetch
the page at the current highwater mark; continue with
`highwatermarkId := max_id` exactly when `max_id > highwatermarkId` and
the page is non-empty, else stop. `resp` maps a highwater mark to the
server's response; `fuel` bounds the modelled recursion, and the loop
returns the list of highwater marks it fetched at (`none` if `fuel` ran
out before the loop exited). -/
def steamDateLoop {α : Type} (resp : Nat → SteamResp α) :
    Nat → Nat → Option (List Nat)
  | 0, _ => none
  | fuel + 1, hw =>
    let p := resp hw
    if hw < p.maxId && !p.results.isEmpty then
      (steamDateLoop resp fuel p.maxId).map (fun l => hw :: l)
    else some [hw]

/-! ## Helper lemmas: Sheets backend -/

theorem getCol_projectRow_of_not_mem {dc : List String} {r : Row} {c : String}
    (h : c ∉ dc) : getCol (projectRow dc r) c = none := by
  induction dc with
  | nil => rfl
  | cons d ds ih =>
    have hcd : c ≠ d := fun hh => h (hh ▸ List.mem_cons_self d ds)
    have hds : c ∉ ds := fun hh => h (List.mem_cons_of_mem d hh)
    simp only [projectRow, List.filterMap_cons]
    cases hgd : getCol r d with
    | none => exact ih hds
    | some v =>
      simp only [Option.map_some']
      simp only [getCol, List.find?_cons]
      have : (((d, v) : String × Val).1 == c) = false := by
        simp [beq_iff_eq]
        exact fun hh => hcd hh.symm
      rw [this]
      exact ih hds

theorem getCol_projectRow_of_mem {dc : List String} {r : Row} {c : String}
    (h : c ∈ dc) : getCol (projectRow dc r) c = getCol r c := by
  induction dc with
  | nil => cases h
  | cons d ds ih =>
    simp only [projectRow, List.filterMap_cons]
    by_cases hcd : c = d
    · subst hcd
      cases hgd : getCol r c with
      | some v =>
        simp only [Option.map_some']
        simp [getCol, List.find?_cons]
      | none =>
        simp only [Option.map_none']
        show getCol (projectRow ds r) c = none
        by_cases hmem : c ∈ ds
        · rw [ih hmem, hgd]
        · exact getCol_projectRow_of_not_mem hmem
    · have hmem : c ∈ ds := (List.mem_cons.mp h).resolve_left hcd
      cases hgd : getCol r d with
      | none => exact ih hmem
      | some v =>
        simp only [Option.map_some']
        simp only [getCol, List.find?_cons]
        have : (((d, v) : String × Val).1 == c) = false := by
          simp [beq_iff_eq]
          exact fun hh => hcd hh.symm
        rw [this]
        exact ih hmem

theorem rowKey_projectRow {cc dc : List String} {r : Row} (hsub : cc ⊆ dc) :
    rowKey cc (projectRow dc r) = rowKey cc r := by
  simp only [rowKey, joinKey]
  congr 1
  exact List.map_congr_left fun c hc => by
    rw [getCol_projectRow_of_mem (hsub hc)]

theorem sheetsUpsertLoop_key_cover {cc dc : List String} (hsub : cc ⊆ dc)
    {rows : List Row} {r : Row} (hr : r ∈ rows) :
    ∀ seen, rowKey cc r ∈ seen ∨
      rowKey cc r ∈ (sheetsUpsertLoop cc dc seen rows).map (rowKey cc) := by
  induction rows with
  | nil => cases hr
  | cons r0 rest ih =>
    intro seen
    simp only [sheetsUpsertLoop]
    by_cases hc : seen.contains (rowKey cc r0)
    · rw [if_pos hc]
      rcases List.mem_cons.mp hr with hr1 | hr1
      · subst hr1
        exact Or.inl (by simpa using hc)
      · exact ih hr1 seen
    · rw [if_neg hc]
      rcases List.mem_cons.mp hr with hr1 | hr1
      · subst hr1
        right
        simp [rowKey_projectRow hsub]
      · rcases ih hr1 (rowKey cc r0 :: seen) with hin | hin
        · rcases List.mem_cons.mp hin with hin | hin
          · right; simp [hin, rowKey_projectRow hsub]
          · exact Or.inl hin
        · right; simp [hin]

theorem sheetsUpsertLoop_all_seen {cc dc : List String} :
    ∀ {rows : List Row} {seen : List String},
      (∀ r ∈ rows, rowKey cc r ∈ seen) → sheetsUpsertLoop cc dc seen rows = [] := by
  intro rows
  induction rows with
  | nil => intro seen _; rfl
  | cons r0 rest ih =>
    intro seen hall
    simp only [sheetsUpsertLoop]
    have : seen.contains (rowKey cc r0) := by
      simpa using hall r0 (List.mem_cons_self r0 rest)
    rw [if_pos this]
    exact ih fun r hr => hall r (List.mem_cons_of_mem r0 hr)

theorem sheetsUpsertLoop_keys_fresh {cc dc : List String} (hsub : cc ⊆ dc) :
    ∀ (rows : List Row) (seen : List String),
      ((sheetsUpsertLoop cc dc seen rows).map (rowKey cc)).Nodup ∧
      ∀ k ∈ (sheetsUpsertLoop cc dc seen rows).map (rowKey cc), k ∉ seen := by
  intro rows
  induction rows with
  | nil => intro seen; simp [sheetsUpsertLoop]
  | cons r0 rest ih =>
    intro seen
    simp only [sheetsUpsertLoop]
    by_cases hc : seen.contains (rowKey cc r0)
    · rw [if_pos hc]; exact ih seen
    · rw [if_neg hc]
      obtain ⟨hnd, hfr⟩ := ih (rowKey cc r0 :: seen)
      have hknotin : rowKey cc r0 ∉ seen := by simpa using hc
      constructor
      · simp only [List.map_cons, List.nodup_cons]
        refine ⟨?_, hnd⟩
        rw [rowKey_projectRow hsub]
        intro hmem
        exact (hfr _ hmem) (List.mem_cons_self _ _)
      · intro k hk
        simp only [List.map_cons, List.mem_cons] at hk
        rcases hk with hk | hk
        · rw [hk, rowKey_projectRow hsub]; exact hknotin
        · intro hks
          exact hfr k hk (List.mem_cons_of_mem _ hks)

theorem docGet_docSet_self {d : Doc} {tab : String} {E v : List Row}
    (h : docGet d tab = some E) : docGet (docSet d tab v) tab = some v := by
  induction d with
  | nil => simp [docGet] at h
  | cons p rest ih =>
    by_cases hp : p.1 = tab
    · simp [docGet, docSet, hp]
    · have hb : (p.1 == tab) = false := by simpa using hp
      rw [docGet, List.find?_cons_of_neg _ (by simp [hb])] at h
      have hstep : docSet (p :: rest) tab v = p :: docSet rest tab v := by
        simp only [docSet, List.map_cons, hb, Bool.false_eq_true, if_false]
      rw [hstep, docGet, List.find?_cons_of_neg _ (by simp [hb])]
      exact ih h

/-- Claim C10: in the flat Google-Sheets backend, an upsert whose collection
maps to a tab that does not exist returns `{rowCount: 0}` without raising
and writes nothing: the whole batch is silently dropped. -/
theorem missing_tab_silently_drops_batch
    (doc : Doc) (table : String) (cc dc : List String) (rows : List Row)
    (h : docGet doc (tabNameOf table) = none) :
    sheetsUpsert doc table cc dc rows = (doc, 0) := by
  simp only [sheetsUpsert, h]
  split <;> rfl

/-- Witness for C10 at a concrete spreadsheet, collection and batch. -/
theorem missing_tab_silently_drops_batch_witness :
    sheetsUpsert [("Stripe", [[("id", "a")]])] "steam_sales" ["id"] ["id"]
      [[("id", "b")]] = ([("Stripe", [[("id", "a")]])], 0) :=
  missing_tab_silently_drops_batch _ _ _ _ _ (by decide)

theorem sheetsUpsert_idem {doc : Doc} {table : String} {cc dc : List String}
    {rows : List Row} (hsub : cc ⊆ dc) :
    sheetsUpsert (sheetsUpsert doc table cc dc rows).1 table cc dc rows =
      ((sheetsUpsert doc table cc dc rows).1, 0) := by
  by_cases hrows : rows.isEmpty
  · simp [sheetsUpsert, hrows]
  · cases hdg : docGet doc (tabNameOf table) with
    | none =>
      have h1 : sheetsUpsert doc table cc dc rows = (doc, 0) := by
        simp [sheetsUpsert, hrows, hdg]
      rw [h1]
      simp [sheetsUpsert, hrows, hdg]
    | some E =>
      cases hnew : sheetsUpsertLoop cc dc (E.map (rowKey cc)) rows with
      | nil =>
        have h1 : sheetsUpsert doc table cc dc rows = (doc, 0) := by
          simp [sheetsUpsert, hrows, hdg, hnew]
        rw [h1]
        simp [sheetsUpsert, hrows, hdg, hnew]
      | cons n0 nrest =>
        have h1 : sheetsUpsert doc table cc dc rows =
            (docSet doc (tabNameOf table) (E ++ (n0 :: nrest)), (n0 :: nrest).length) := by
          simp [sheetsUpsert, hrows, hdg, hnew]
        have hd2 : docGet (docSet doc (tabNameOf table) (E ++ (n0 :: nrest)))
            (tabNameOf table) = some (E ++ (n0 :: nrest)) := docGet_docSet_self hdg
        have hall : ∀ r ∈ rows, rowKey cc r ∈ (E ++ (n0 :: nrest)).map (rowKey cc) := by
          intro r hr
          rw [List.map_append]
          rcases sheetsUpsertLoop_key_cover hsub hr (E.map (rowKey cc)) with h | h
          · exact List.mem_append_left _ h
          · rw [hnew] at h
            exact List.mem_append_right _ h
        have h2 : sheetsUpsertLoop cc dc ((E ++ (n0 :: nrest)).map (rowKey cc)) rows = [] :=
          sheetsUpsertLoop_all_seen hall
        simp only [List.map_append, List.map_cons] at h2
        rw [h1]
        simp [sheetsUpsert, hrows, hd2, h2]

theorem sheetsUpsert_dedup_count {doc : Doc} {table : String} {cc dc : List String}
    {rows : List Row} {E : List Row} (hsub : cc ⊆ dc)
    (hdg : docGet doc (tabNameOf table) = some E)
    {r : Row} (hr : r ∈ rows)
    (hfresh : rowKey cc r ∉ E.map (rowKey cc)) :
    (((docGet ((sheetsUpsert doc table cc dc rows).1) (tabNameOf table)).getD []).map
      (rowKey cc)).count (rowKey cc r) = 1 := by
  have hrows : rows.isEmpty = false := by
    cases rows with
    | nil => cases hr
    | cons a b => rfl
  have hmemnew : rowKey cc r ∈ (sheetsUpsertLoop cc dc (E.map (rowKey cc)) rows).map (rowKey cc) := by
    rcases sheetsUpsertLoop_key_cover hsub hr (E.map (rowKey cc)) with h | h
    · exact absurd h hfresh
    · exact h
  obtain ⟨hnd, _⟩ := sheetsUpsertLoop_keys_fresh hsub rows (E.map (rowKey cc))
  cases hnew : sheetsUpsertLoop cc dc (E.map (rowKey cc)) rows with
  | nil => rw [hnew] at hmemnew; cases hmemnew
  | cons n0 nrest =>
    have h1 : (sheetsUpsert doc table cc dc rows).1 =
        docSet doc (tabNameOf table) (E ++ (n0 :: nrest)) := by
      simp [sheetsUpsert, hrows, hdg, hnew]
    rw [h1, docGet_docSet_self hdg]
    rw [hnew] at hmemnew hnd
    simp only [Option.getD_some, List.map_append, List.count_append]
    have hE0 : (E.map (rowKey cc)).count (rowKey cc r) = 0 :=
      List.count_eq_zero.mpr hfresh
    have hle : ((n0 :: nrest).map (rowKey cc)).count (rowKey cc r) ≤ 1 :=
      List.nodup_iff_count_le_one.mp hnd _
    have hpos : 0 < ((n0 :: nrest).map (rowKey cc)).count (rowKey cc r) :=
      List.count_pos_iff.mpr hmemnew
    omega

theorem sheetsUpsert_keeps_existing {doc : Doc} {table : String} {cc dc : List String}
    {rows : List Row} {E : List Row} (hsub : cc ⊆ dc)
    (hdg : docGet doc (tabNameOf table) = some E) :
    ∃ new, docGet ((sheetsUpsert doc table cc dc rows).1) (tabNameOf table) =
        some (E ++ new) ∧ ∀ x ∈ new, rowKey cc x ∉ E.map (rowKey cc) := by
  by_cases hrows : rows.isEmpty
  · refine ⟨[], ?_, by simp⟩
    simp [sheetsUpsert, hrows, hdg]
  · cases hnew : sheetsUpsertLoop cc dc (E.map (rowKey cc)) rows with
    | nil =>
      refine ⟨[], ?_, by simp⟩
      simp [sheetsUpsert, hrows, hdg, hnew]
    | cons n0 nrest =>
      refine ⟨n0 :: nrest, ?_, ?_⟩
      · have h1 : (sheetsUpsert doc table cc dc rows).1 =
            docSet doc (tabNameOf table) (E ++ (n0 :: nrest)) := by
          simp [sheetsUpsert, hrows, hdg, hnew]
        rw [h1, docGet_docSet_self hdg]
      · intro x hx
        obtain ⟨_, hfr⟩ := sheetsUpsertLoop_keys_fresh hsub rows (E.map (rowKey cc))
        rw [hnew] at hfr
        exact hfr _ (List.mem_map_of_mem _ hx)

/-! ## Helper lemmas: Postgres backend -/

/-- Every binding of column `c` in the row carries value `v`. -/
def AllC (r : PgRow) (c : String) (v : Option Val) : Prop :=
  ∀ p ∈ r, p.1 = c → p.2 = v

/-- The row has at least one binding of column `c`. -/
def HasC (r : PgRow) (c : String) : Prop :=
  ∃ p ∈ r, p.1 = c

theorem pgread_of_AllC_HasC {r : PgRow} {c : String} {v : Option Val}
    (hall : AllC r c v) (hhas : HasC r c) : pgread r c = v := by
  have hs : (r.find? (fun p => p.1 == c)).isSome := by
    rw [List.find?_isSome]
    obtain ⟨p, hp, hpc⟩ := hhas
    exact ⟨p, hp, by simpa using hpc⟩
  cases hf : r.find? (fun p => p.1 == c) with
  | none => rw [hf] at hs; cases hs
  | some p =>
    have hpc : p.1 = c := by simpa using List.find?_some hf
    have hpm : p ∈ r := List.mem_of_find?_eq_some hf
    simp only [pgread, hf]
    exact hall p hpm hpc

theorem AllC_setPgCol_self (r : PgRow) (c : String) (v : Option Val) :
    AllC (setPgCol r c v) c v := by
  intro p hp hpc
  simp only [setPgCol] at hp
  split at hp
  · obtain ⟨q, hq, hqe⟩ := List.mem_map.mp hp
    by_cases hq1 : q.1 = c
    · rw [if_pos (by simpa using hq1)] at hqe
      rw [← hqe]
    · rw [if_neg (by simpa using hq1)] at hqe
      rw [← hqe] at hpc
      exact absurd hpc hq1
  · rename_i hnone
    rcases List.mem_append.mp hp with hin | hin
    · cases hcase : r.find? (fun p => p.1 == c) with
      | some q => exact absurd (by simp [hcase]) hnone
      | none =>
        have := List.find?_eq_none.mp hcase p hin
        simp [hpc] at this
    · simp only [List.mem_singleton] at hin
      subst hin
      rfl

theorem HasC_setPgCol_self (r : PgRow) (c : String) (v : Option Val) :
    HasC (setPgCol r c v) c := by
  simp only [setPgCol]
  split
  · rename_i hsome
    rw [List.find?_isSome] at hsome
    obtain ⟨q, hq, hqc⟩ := hsome
    refine ⟨(c, v), List.mem_map.mpr ⟨q, hq, ?_⟩, rfl⟩
    show (if (q.1 == c) = true then ((c, v) : String × Option Val) else q) = (c, v)
    rw [if_pos hqc]
  · exact ⟨(c, v), List.mem_append_right _ (by simp), rfl⟩

theorem AllC_setPgCol_other {r : PgRow} {c c2 : String} {v v2 : Option Val}
    (hne : c ≠ c2) (hall : AllC r c v) : AllC (setPgCol r c2 v2) c v := by
  intro p hp hpc
  simp only [setPgCol] at hp
  split at hp
  · obtain ⟨q, hq, hqe⟩ := List.mem_map.mp hp
    by_cases hq1 : q.1 = c2
    · rw [if_pos (by simpa using hq1)] at hqe
      rw [← hqe] at hpc
      exact absurd hpc.symm hne
    · rw [if_neg (by simpa using hq1)] at hqe
      exact hqe ▸ hall q hq (hqe ▸ hpc)
  · rcases List.mem_append.mp hp with hin | hin
    · exact hall p hin hpc
    · simp only [List.mem_singleton] at hin
      subst hin
      exact absurd hpc.symm hne

theorem HasC_setPgCol_other {r : PgRow} {c c2 : String} {v2 : Option Val}
    (hne : c ≠ c2) (hhas : HasC r c) : HasC (setPgCol r c2 v2) c := by
  obtain ⟨p, hp, hpc⟩ := hhas
  have hp1 : ¬((p.1 == c2) = true) := by
    simp only [beq_iff_eq]
    exact fun h => hne (hpc.symm.trans h)
  simp only [setPgCol]
  split
  · refine ⟨p, List.mem_map.mpr ⟨p, hp, ?_⟩, hpc⟩
    show (if (p.1 == c2) = true then ((c2, v2) : String × Option Val) else p) = p
    rw [if_neg hp1]
  · exact ⟨p, List.mem_append_left _ hp, hpc⟩

theorem setPgCol_eq_self {r : PgRow} {c : String} {v : Option Val}
    (hall : AllC r c v) (hhas : HasC r c) : setPgCol r c v = r := by
  have hs : (r.find? (fun p => p.1 == c)).isSome := by
    rw [List.find?_isSome]
    obtain ⟨p, hp, hpc⟩ := hhas
    exact ⟨p, hp, by simpa using hpc⟩
  have h1 : setPgCol r c v = r.map (fun p => if p.1 == c then (c, v) else p) := by
    simp [setPgCol, hs]
  rw [h1]
  calc r.map (fun p => if p.1 == c then (c, v) else p) = r.map id := by
        refine List.map_congr_left fun p hp => ?_
        by_cases hp1 : p.1 = c
        · rw [if_pos (by simpa using hp1), id_eq, ← hp1, ← hall p hp hp1]
        · rw [if_neg (by simpa using hp1), id_eq]
    _ = r := List.map_id r

theorem find?_setPgCol_map {r : PgRow} {c c2 : String} {v2 : Option Val}
    (hne : c ≠ c2) :
    (r.map (fun p => if p.1 == c2 then (c2, v2) else p)).find? (fun p => p.1 == c) =
      r.find? (fun p => p.1 == c) := by
  induction r with
  | nil => rfl
  | cons p rest ih =>
    rw [List.map_cons]
    by_cases hp1 : p.1 = c2
    · have hpc : ¬((p.1 == c) = true) := by
        simp only [beq_iff_eq]
        exact fun h => hne (h.symm.trans hp1)
      have hcc : ¬((((c2, v2) : String × Option Val).1 == c) = true) := by
        simp only [beq_iff_eq]
        exact fun h => hne h.symm
      rw [if_pos (by simpa using hp1),
          @List.find?_cons_of_neg _ (fun q => q.1 == c) (c2, v2) _ hcc,
          @List.find?_cons_of_neg _ (fun q => q.1 == c) p _ hpc]
      exact ih
    · rw [if_neg (by simpa using hp1)]
      by_cases hpc : p.1 = c
      · rw [@List.find?_cons_of_pos _ (fun q => q.1 == c) p _ (by simpa using hpc),
            @List.find?_cons_of_pos _ (fun q => q.1 == c) p _ (by simpa using hpc)]
      · rw [@List.find?_cons_of_neg _ (fun q => q.1 == c) p _ (by simpa using hpc),
            @List.find?_cons_of_neg _ (fun q => q.1 == c) p _ (by simpa using hpc)]
        exact ih

theorem pgread_setPgCol_other {r : PgRow} {c c2 : String} {v2 : Option Val}
    (hne : c ≠ c2) : pgread (setPgCol r c2 v2) c = pgread r c := by
  simp only [setPgCol]
  split
  · simp only [pgread, find?_setPgCol_map hne]
  · have hcc : ¬((((c2, v2) : String × Option Val).1 == c) = true) := by
      simp only [beq_iff_eq]
      exact fun h => hne h.symm
    have h1 : List.find? (fun q => q.1 == c) [(c2, v2)] = none :=
      (@List.find?_cons_of_neg _ (fun q => q.1 == c) (c2, v2) [] hcc).trans List.find?_nil
    simp only [pgread, List.find?_append, h1]
    cases r.find? (fun p => p.1 == c) <;> rfl

theorem updateCols_cons (c : String) (u : List String) (sr nr : PgRow) :
    updateCols (c :: u) sr nr = updateCols u (setPgCol sr c (pgread nr c)) nr := rfl

theorem updateCols_eq_self {u : List String} {r nr : PgRow}
    (h : ∀ c ∈ u, AllC r c (pgread nr c) ∧ HasC r c) : updateCols u r nr = r := by
  induction u with
  | nil => rfl
  | cons c us ih =>
    rw [updateCols_cons,
        setPgCol_eq_self (h c (List.mem_cons_self c us)).1 (h c (List.mem_cons_self c us)).2]
    exact ih fun c2 hc2 => h c2 (List.mem_cons_of_mem c hc2)

theorem updateCols_pres_AllC {u : List String} {c : String} {w : Option Val} {nr : PgRow}
    (hnm : c ∉ u) : ∀ {r : PgRow}, AllC r c w → HasC r c →
      AllC (updateCols u r nr) c w ∧ HasC (updateCols u r nr) c := by
  induction u with
  | nil => exact fun hall hhas => ⟨hall, hhas⟩
  | cons c0 us ih =>
    intro r hall hhas
    have hne : c ≠ c0 := fun h => hnm (h ▸ List.mem_cons_self c0 us)
    rw [updateCols_cons]
    exact ih (fun h => hnm (List.mem_cons_of_mem c0 h))
      (AllC_setPgCol_other hne hall) (HasC_setPgCol_other hne hhas)

theorem updateCols_AllC_HasC {u : List String} {nr : PgRow} :
    ∀ {r : PgRow}, ∀ c ∈ u,
      AllC (updateCols u r nr) c (pgread nr c) ∧ HasC (updateCols u r nr) c := by
  induction u with
  | nil => intro r c hc; cases hc
  | cons c0 us ih =>
    intro r c hc
    rw [updateCols_cons]
    by_cases hmem : c ∈ us
    · exact ih c hmem
    · have hc0 : c = c0 := (List.mem_cons.mp hc).resolve_right hmem
      subst hc0
      exact updateCols_pres_AllC hmem (AllC_setPgCol_self r c (pgread nr c))
        (HasC_setPgCol_self r c (pgread nr c))

theorem updateCols_idem (u : List String) (r nr : PgRow) :
    updateCols u (updateCols u r nr) nr = updateCols u r nr :=
  updateCols_eq_self fun c hc => updateCols_AllC_HasC c hc

theorem pgread_updateCols_other {u : List String} {c : String} {nr : PgRow}
    (hnm : c ∉ u) : ∀ {r : PgRow}, pgread (updateCols u r nr) c = pgread r c := by
  induction u with
  | nil => intro r; rfl
  | cons c0 us ih =>
    intro r
    have hne : c ≠ c0 := fun h => hnm (h ▸ List.mem_cons_self c0 us)
    rw [updateCols_cons, ih (fun h => hnm (List.mem_cons_of_mem c0 h)),
        pgread_setPgCol_other hne]

theorem pgKey_updateCols {cc u : List String} {r nr : PgRow}
    (hdisj : ∀ c ∈ cc, c ∉ u) : pgKey cc (updateCols u r nr) = pgKey cc r := by
  simp only [pgKey]
  exact List.map_congr_left fun c hc => pgread_updateCols_other (hdisj c hc)

theorem AllC_pgRowOf (ac : List String) (r : Row) (c : String) :
    AllC (pgRowOf ac r) c (getCol r c) := by
  intro p hp hpc
  obtain ⟨c1, _, hc1e⟩ := List.mem_map.mp hp
  rw [← hc1e] at hpc ⊢
  simp only at hpc ⊢
  rw [hpc]

theorem HasC_pgRowOf {ac : List String} {c : String} (hc : c ∈ ac) (r : Row) :
    HasC (pgRowOf ac r) c :=
  ⟨(c, getCol r c), List.mem_map_of_mem _ hc, rfl⟩

theorem pgread_pgRowOf {ac : List String} {c : String} (hc : c ∈ ac) (r : Row) :
    pgread (pgRowOf ac r) c = getCol r c :=
  pgread_of_AllC_HasC (AllC_pgRowOf ac r c) (HasC_pgRowOf hc r)

theorem pgRowOf_selfFix {u ac : List String} (hsub : ∀ c ∈ u, c ∈ ac) (r : Row) :
    updateCols u (pgRowOf ac r) (pgRowOf ac r) = pgRowOf ac r :=
  updateCols_eq_self fun c hc => by
    rw [pgread_pgRowOf (hsub c hc)]
    exact ⟨AllC_pgRowOf ac r c, HasC_pgRowOf (hsub c hc) r⟩

theorem mem_jsDedupAux {x : String} : ∀ {l seen : List String},
    x ∈ l → x ∉ seen → x ∈ jsDedupAux seen l := by
  intro l
  induction l with
  | nil => intro seen h; cases h
  | cons a as ih =>
    intro seen hx hns
    simp only [jsDedupAux]
    by_cases hc : seen.contains a
    · rw [if_pos hc]
      rcases List.mem_cons.mp hx with hxa | hxa
      · exact absurd (by simpa using hc : a ∈ seen) (hxa ▸ hns)
      · exact ih hxa hns
    · rw [if_neg hc]
      rcases List.mem_cons.mp hx with hxa | hxa
      · exact hxa ▸ List.mem_cons_self a _
      · by_cases hxa2 : x = a
        · exact hxa2 ▸ List.mem_cons_self a _
        · exact List.mem_cons_of_mem a (ih hxa (by
            intro hmem
            rcases List.mem_cons.mp hmem with h | h
            · exact hxa2 h
            · exact hns h))

theorem mem_jsDedup {x : String} {l : List String} (hx : x ∈ l) : x ∈ jsDedup l :=
  mem_jsDedupAux hx (List.not_mem_nil x)

theorem pgKey_pgRowOf {cc ac : List String} (hsub : ∀ c ∈ cc, c ∈ ac) (r : Row) :
    pgKey cc (pgRowOf ac r) = cc.map (getCol r) := by
  simp only [pgKey]
  exact List.map_congr_left fun c hc => pgread_pgRowOf (hsub c hc) r

theorem pgMerge_eq_none {cc u : List String} {nr : PgRow} :
    ∀ {t : List PgRow}, pgMerge cc u nr t = none ↔ ∀ x ∈ t, pgKey cc x ≠ pgKey cc nr := by
  intro t
  induction t with
  | nil => simp [pgMerge]
  | cons r rs ih =>
    simp only [pgMerge]
    by_cases hk : pgKey cc r = pgKey cc nr
    · rw [if_pos (by simpa using hk)]
      simp only [reduceCtorEq, false_iff, not_forall]
      exact ⟨r, List.mem_cons_self r rs, fun hcon => hcon hk⟩
    · rw [if_neg (by simpa using hk)]
      simp only [Option.map_eq_none', ih]
      constructor
      · intro h x hx
        rcases List.mem_cons.mp hx with hxr | hxr
        · exact hxr ▸ hk
        · exact h x hxr
      · exact fun h x hx => h x (List.mem_cons_of_mem r hx)

theorem pgMerge_cons_of_eq {cc u : List String} {nr r : PgRow} {rs : List PgRow}
    (hk : pgKey cc r = pgKey cc nr) :
    pgMerge cc u nr (r :: rs) = some (updateCols u r nr :: rs) := by
  simp only [pgMerge]
  rw [if_pos (by simpa using hk)]

theorem pgMerge_cons_of_ne {cc u : List String} {nr r : PgRow} {rs : List PgRow}
    (hk : pgKey cc r ≠ pgKey cc nr) :
    pgMerge cc u nr (r :: rs) = (pgMerge cc u nr rs).map (fun t => r :: t) := by
  simp only [pgMerge]
  rw [if_neg (by simpa using hk)]

theorem pgMerge_absorbed_of_merge {cc u : List String} {nr : PgRow}
    (hdisj : ∀ c ∈ cc, c ∉ u) :
    ∀ {t t2 : List PgRow}, pgMerge cc u nr t = some t2 → pgMerge cc u nr t2 = some t2 := by
  intro t
  induction t with
  | nil => intro t2 h; cases h
  | cons r rs ih =>
    intro t2 h
    by_cases hk : pgKey cc r = pgKey cc nr
    · rw [pgMerge_cons_of_eq hk] at h
      obtain rfl : updateCols u r nr :: rs = t2 := Option.some.inj h
      rw [pgMerge_cons_of_eq (by rw [pgKey_updateCols hdisj]; exact hk)]
      rw [updateCols_idem]
    · rw [pgMerge_cons_of_ne hk] at h
      cases hm : pgMerge cc u nr rs with
      | none => rw [hm] at h; cases h
      | some rs2 =>
        rw [hm] at h
        obtain rfl : r :: rs2 = t2 := Option.some.inj h
        rw [pgMerge_cons_of_ne hk, ih hm]
        rfl

theorem pgMerge_absorbed_of_insert {cc u : List String} {nr : PgRow}
    (hfix : updateCols u nr nr = nr) :
    ∀ {t : List PgRow}, pgMerge cc u nr t = none →
      pgMerge cc u nr (t ++ [nr]) = some (t ++ [nr]) := by
  intro t
  induction t with
  | nil =>
    intro _
    simp only [List.nil_append]
    rw [pgMerge_cons_of_eq rfl, hfix]
  | cons r rs ih =>
    intro h
    have hk : pgKey cc r ≠ pgKey cc nr :=
      (pgMerge_eq_none.mp h) r (List.mem_cons_self r rs)
    have hrs : pgMerge cc u nr rs = none := by
      rw [pgMerge_eq_none]
      exact fun x hx => (pgMerge_eq_none.mp h) x (List.mem_cons_of_mem r hx)
    rw [List.cons_append, pgMerge_cons_of_ne hk, ih hrs]
    rfl

theorem pgMerge_absorbed_preserved_merge {cc u : List String} {nr nr2 : PgRow}
    (hdisj : ∀ c ∈ cc, c ∉ u) (hne : pgKey cc nr2 ≠ pgKey cc nr) :
    ∀ {t t2 : List PgRow}, pgMerge cc u nr t = some t →
      pgMerge cc u nr2 t = some t2 → pgMerge cc u nr t2 = some t2 := by
  intro t
  induction t with
  | nil => intro t2 h; cases h
  | cons r rs ih =>
    intro t2 habs hm2
    by_cases hk : pgKey cc r = pgKey cc nr
    · rw [pgMerge_cons_of_eq hk] at habs
      have hupd : updateCols u r nr = r := by
        have := Option.some.inj habs
        exact (List.cons.injEq _ _ _ _ ▸ this).1
      have hk2 : pgKey cc r ≠ pgKey cc nr2 := fun h => hne (h ▸ hk)
      rw [pgMerge_cons_of_ne hk2] at hm2
      cases hm : pgMerge cc u nr2 rs with
      | none => rw [hm] at hm2; cases hm2
      | some rs2 =>
        rw [hm] at hm2
        obtain rfl : r :: rs2 = t2 := Option.some.inj hm2
        rw [pgMerge_cons_of_eq hk, hupd]
    · rw [pgMerge_cons_of_ne hk] at habs
      have habs_rs : pgMerge cc u nr rs = some rs := by
        cases hm : pgMerge cc u nr rs with
        | none => rw [hm] at habs; cases habs
        | some rs' =>
          rw [hm] at habs
          have heq : r :: rs' = r :: rs := Option.some.inj habs
          injection heq with h1 h2
          rw [h2]
      by_cases hk2 : pgKey cc r = pgKey cc nr2
      · rw [pgMerge_cons_of_eq hk2] at hm2
        obtain rfl : updateCols u r nr2 :: rs = t2 := Option.some.inj hm2
        have hknew : pgKey cc (updateCols u r nr2) ≠ pgKey cc nr := by
          rw [pgKey_updateCols hdisj]
          exact hk
        rw [pgMerge_cons_of_ne hknew, habs_rs]
        rfl
      · rw [pgMerge_cons_of_ne hk2] at hm2
        cases hm : pgMerge cc u nr2 rs with
        | none => rw [hm] at hm2; cases hm2
        | some rs2 =>
          rw [hm] at hm2
          obtain rfl : r :: rs2 = t2 := Option.some.inj hm2
          rw [pgMerge_cons_of_ne hk, ih habs_rs hm]
          rfl

theorem pgMerge_absorbed_preserved_append {cc u : List String} {nr x : PgRow} :
    ∀ {t : List PgRow}, pgMerge cc u nr t = some t →
      pgMerge cc u nr (t ++ [x]) = some (t ++ [x]) := by
  intro t
  induction t with
  | nil => intro h; cases h
  | cons r rs ih =>
    intro habs
    by_cases hk : pgKey cc r = pgKey cc nr
    · rw [pgMerge_cons_of_eq hk] at habs
      have hupd : updateCols u r nr = r := by
        have := Option.some.inj habs
        exact (List.cons.injEq _ _ _ _ ▸ this).1
      rw [List.cons_append, pgMerge_cons_of_eq hk, hupd]
    · rw [pgMerge_cons_of_ne hk] at habs
      have habs_rs : pgMerge cc u nr rs = some rs := by
        cases hm : pgMerge cc u nr rs with
        | none => rw [hm] at habs; cases habs
        | some rs' =>
          rw [hm] at habs
          have heq : r :: rs' = r :: rs := Option.some.inj habs
          injection heq with h1 h2
          rw [h2]
      rw [List.cons_append, pgMerge_cons_of_ne hk, ih habs_rs]
      rfl

theorem pgApplyRow_eq (cc u : List String) (st : PgExec) (nr : PgRow) :
    pgApplyRow cc u st nr =
      if (pgKey cc nr).all (fun v => v.isSome) then
        if st.touched.contains (pgKey cc nr) then
          .error "ON CONFLICT DO UPDATE command cannot affect row a second time"
        else
          match pgMerge cc u nr st.table with
          | some t2 => .ok ⟨t2, pgKey cc nr :: st.touched, st.count + 1⟩
          | none => .ok ⟨st.table ++ [nr], pgKey cc nr :: st.touched, st.count + 1⟩
      else .ok ⟨st.table ++ [nr], st.touched, st.count + 1⟩ := rfl

theorem pgRun_cons_ok {cc u : List String} {st st2 : PgExec} {nr : PgRow}
    (rest : List PgRow) (hap : pgApplyRow cc u st nr = .ok st2) :
    pgRun cc u st (nr :: rest) = pgRun cc u st2 rest := by
  simp only [pgRun, hap]

theorem pgRun_cons_err {cc u : List String} {st : PgExec} {nr : PgRow} {e : String}
    (rest : List PgRow) (hap : pgApplyRow cc u st nr = .error e) :
    pgRun cc u st (nr :: rest) = .error e := by
  simp only [pgRun, hap]

theorem pgRun_preserves_absorbed {cc u : List String} (hdisj : ∀ c ∈ cc, c ∉ u)
    {nr : PgRow} :
    ∀ {rows : List PgRow} (st stF : PgExec),
      pgMerge cc u nr st.table = some st.table → pgKey cc nr ∈ st.touched →
      pgRun cc u st rows = .ok stF →
      pgMerge cc u nr stF.table = some stF.table ∧ pgKey cc nr ∈ stF.touched := by
  intro rows
  induction rows with
  | nil =>
    intro st stF habs htc hrun
    simp only [pgRun] at hrun
    obtain rfl := Except.ok.inj hrun
    exact ⟨habs, htc⟩
  | cons nr2 rest ih =>
    intro st stF habs htc hrun
    cases hap : pgApplyRow cc u st nr2 with
    | error e => rw [pgRun_cons_err rest hap] at hrun; exact Except.noConfusion hrun
    | ok st2 =>
      rw [pgRun_cons_ok rest hap] at hrun
      rw [pgApplyRow_eq] at hap
      by_cases hall : (pgKey cc nr2).all (fun v => v.isSome)
      · rw [if_pos hall] at hap
        by_cases htc2 : st.touched.contains (pgKey cc nr2)
        · rw [if_pos htc2] at hap
          exact Except.noConfusion hap
        · rw [if_neg htc2] at hap
          have hne : pgKey cc nr2 ≠ pgKey cc nr := by
            intro h
            exact htc2 (by rw [h]; simpa using htc)
          cases hm : pgMerge cc u nr2 st.table with
          | some t2 =>
            rw [hm] at hap
            obtain rfl := Except.ok.inj hap
            exact ih ⟨t2, pgKey cc nr2 :: st.touched, st.count + 1⟩ stF
              (pgMerge_absorbed_preserved_merge hdisj hne habs hm)
              (List.mem_cons_of_mem _ htc) hrun
          | none =>
            rw [hm] at hap
            obtain rfl := Except.ok.inj hap
            exact ih ⟨st.table ++ [nr2], pgKey cc nr2 :: st.touched, st.count + 1⟩ stF
              (pgMerge_absorbed_preserved_append habs)
              (List.mem_cons_of_mem _ htc) hrun
      · rw [if_neg hall] at hap
        obtain rfl := Except.ok.inj hap
        exact ih ⟨st.table ++ [nr2], st.touched, st.count + 1⟩ stF
          (pgMerge_absorbed_preserved_append habs) htc hrun

theorem pgRun_call1 {cc u : List String} (hdisj : ∀ c ∈ cc, c ∉ u) :
    ∀ {rows : List PgRow} {st stF : PgExec},
      (∀ r ∈ rows, (pgKey cc r).all (fun v => v.isSome) = true ∧ updateCols u r r = r) →
      pgRun cc u st rows = .ok stF →
      (∀ r ∈ rows, pgMerge cc u r stF.table = some stF.table ∧
        pgKey cc r ∉ st.touched ∧ pgKey cc r ∈ stF.touched) ∧
      List.Pairwise (fun a b => pgKey cc a ≠ pgKey cc b) rows := by
  intro rows
  induction rows with
  | nil =>
    intro st stF _ _
    exact ⟨fun r hr => absurd hr (List.not_mem_nil r), List.Pairwise.nil⟩
  | cons nr rest ih =>
    intro st stF hgood hrun
    obtain ⟨hall, hfix⟩ := hgood nr (List.mem_cons_self nr rest)
    cases hap : pgApplyRow cc u st nr with
    | error e => rw [pgRun_cons_err rest hap] at hrun; exact Except.noConfusion hrun
    | ok st2 =>
      rw [pgRun_cons_ok rest hap] at hrun
      rw [pgApplyRow_eq, if_pos hall] at hap
      by_cases htc2 : st.touched.contains (pgKey cc nr)
      · rw [if_pos htc2] at hap
        exact Except.noConfusion hap
      · rw [if_neg htc2] at hap
        have hnotmem : pgKey cc nr ∉ st.touched := by simpa using htc2
        have hrest := ih (fun r hr => hgood r (List.mem_cons_of_mem nr hr)) hrun
        have hstep : pgMerge cc u nr st2.table = some st2.table ∧
            pgKey cc nr ∈ st2.touched ∧ st2.touched = pgKey cc nr :: st.touched := by
          cases hm : pgMerge cc u nr st.table with
          | some t2 =>
            rw [hm] at hap
            obtain rfl := Except.ok.inj hap
            exact ⟨pgMerge_absorbed_of_merge hdisj hm, List.mem_cons_self _ _, rfl⟩
          | none =>
            rw [hm] at hap
            obtain rfl := Except.ok.inj hap
            exact ⟨pgMerge_absorbed_of_insert hfix hm, List.mem_cons_self _ _, rfl⟩
        obtain ⟨habs2, htc3, htouched⟩ := hstep
        have hnr := pgRun_preserves_absorbed hdisj st2 stF habs2 htc3 hrun
        refine ⟨?_, ?_⟩
        · intro r hr
          rcases List.mem_cons.mp hr with hr1 | hr1
          · subst hr1
            exact ⟨hnr.1, hnotmem, hnr.2⟩
          · obtain ⟨ha, hb, hc⟩ := hrest.1 r hr1
            rw [htouched] at hb
            exact ⟨ha, fun hmem => hb (List.mem_cons_of_mem _ hmem), hc⟩
        · rw [List.pairwise_cons]
          refine ⟨?_, hrest.2⟩
          intro r hr
          obtain ⟨_, hb, _⟩ := hrest.1 r hr
          rw [htouched] at hb
          intro heq
          exact hb (heq ▸ List.mem_cons_self _ _)

theorem pgRun_noop {cc u : List String} :
    ∀ {rows : List PgRow} (st : PgExec),
      (∀ r ∈ rows, (pgKey cc r).all (fun v => v.isSome) = true ∧
        pgMerge cc u r st.table = some st.table ∧ pgKey cc r ∉ st.touched) →
      List.Pairwise (fun a b => pgKey cc a ≠ pgKey cc b) rows →
      ∃ tc, pgRun cc u st rows = .ok ⟨st.table, tc, st.count + rows.length⟩ := by
  intro rows
  induction rows with
  | nil =>
    intro st _ _
    refine ⟨st.touched, ?_⟩
    cases st
    simp [pgRun]
  | cons nr rest ih =>
    intro st hgood hpw
    obtain ⟨hall, habs, hnotmem⟩ := hgood nr (List.mem_cons_self nr rest)
    rw [List.pairwise_cons] at hpw
    have hcont : ¬(st.touched.contains (pgKey cc nr) = true) := by simpa using hnotmem
    have hap : pgApplyRow cc u st nr =
        .ok ⟨st.table, pgKey cc nr :: st.touched, st.count + 1⟩ := by
      rw [pgApplyRow_eq, if_pos hall, if_neg hcont, habs]
    have hrest : ∀ r ∈ rest, (pgKey cc r).all (fun v => v.isSome) = true ∧
        pgMerge cc u r (PgExec.mk st.table (pgKey cc nr :: st.touched) (st.count + 1)).table =
          some (PgExec.mk st.table (pgKey cc nr :: st.touched) (st.count + 1)).table ∧
        pgKey cc r ∉ (PgExec.mk st.table (pgKey cc nr :: st.touched) (st.count + 1)).touched := by
      intro r hr
      obtain ⟨ha, hb, hc⟩ := hgood r (List.mem_cons_of_mem nr hr)
      refine ⟨ha, hb, ?_⟩
      intro hmem
      rcases List.mem_cons.mp hmem with h1 | h1
      · exact hpw.1 r hr h1.symm
      · exact hc h1
    obtain ⟨tc, hrun⟩ := ih ⟨st.table, pgKey cc nr :: st.touched, st.count + 1⟩ hrest hpw.2
    refine ⟨tc, ?_⟩
    rw [pgRun_cons_ok rest hap, hrun]
    have harith : st.count + 1 + rest.length = st.count + (nr :: rest).length := by
      simp [List.length_cons]
      omega
    rw [harith]

theorem pgApplyRow_touched_mono {cc u : List String} {st st2 : PgExec} {nr : PgRow}
    (hap : pgApplyRow cc u st nr = .ok st2) : st.touched ⊆ st2.touched := by
  rw [pgApplyRow_eq] at hap
  by_cases hall : (pgKey cc nr).all (fun v => v.isSome)
  · rw [if_pos hall] at hap
    by_cases htc : st.touched.contains (pgKey cc nr)
    · rw [if_pos htc] at hap
      exact Except.noConfusion hap
    · rw [if_neg htc] at hap
      cases hm : pgMerge cc u nr st.table with
      | some t2 =>
        rw [hm] at hap
        obtain rfl := Except.ok.inj hap
        exact List.subset_cons_self _ _
      | none =>
        rw [hm] at hap
        obtain rfl := Except.ok.inj hap
        exact List.subset_cons_self _ _
  · rw [if_neg hall] at hap
    obtain rfl := Except.ok.inj hap
    exact fun x hx => hx

theorem pgApplyRow_ok_touched {cc u : List String} {st st2 : PgExec} {nr : PgRow}
    (hall : (pgKey cc nr).all (fun v => v.isSome) = true)
    (hap : pgApplyRow cc u st nr = .ok st2) : pgKey cc nr ∈ st2.touched := by
  rw [pgApplyRow_eq, if_pos hall] at hap
  by_cases htc : st.touched.contains (pgKey cc nr)
  · rw [if_pos htc] at hap
    exact Except.noConfusion hap
  · rw [if_neg htc] at hap
    cases hm : pgMerge cc u nr st.table with
    | some t2 =>
      rw [hm] at hap
      obtain rfl := Except.ok.inj hap
      exact List.mem_cons_self _ _
    | none =>
      rw [hm] at hap
      obtain rfl := Except.ok.inj hap
      exact List.mem_cons_self _ _

theorem pgRun_err_of_touched {cc u : List String} :
    ∀ {rows : List PgRow} (st : PgExec) {b : PgRow},
      b ∈ rows → (pgKey cc b).all (fun v => v.isSome) = true →
      pgKey cc b ∈ st.touched →
      ∃ e, pgRun cc u st rows = .error e := by
  intro rows
  induction rows with
  | nil => intro st b hb; cases hb
  | cons h0 rest ih =>
    intro st b hb hall htc
    by_cases hkey : pgKey cc h0 = pgKey cc b
    · have hcont : st.touched.contains (pgKey cc h0) = true := by
        rw [hkey]
        simpa using htc
      have hap : pgApplyRow cc u st h0 =
          .error "ON CONFLICT DO UPDATE command cannot affect row a second time" := by
        rw [pgApplyRow_eq, if_pos (by rw [hkey]; exact hall), if_pos hcont]
      exact ⟨_, pgRun_cons_err rest hap⟩
    · have hbr : b ∈ rest := by
        rcases List.mem_cons.mp hb with h1 | h1
        · exact absurd (h1 ▸ rfl) hkey
        · exact h1
      cases hap : pgApplyRow cc u st h0 with
      | error e => exact ⟨e, pgRun_cons_err rest hap⟩
      | ok st2 =>
        obtain ⟨e, he⟩ := ih st2 hbr hall (pgApplyRow_touched_mono hap htc)
        exact ⟨e, (pgRun_cons_ok rest hap).trans he⟩

theorem pgRun_err_pair {cc u : List String} {a b : PgRow} {rest : List PgRow}
    (hb : b ∈ rest) (hk : pgKey cc a = pgKey cc b)
    (hall : (pgKey cc a).all (fun v => v.isSome) = true)
    (st : PgExec) : ∃ e, pgRun cc u st (a :: rest) = .error e := by
  cases hap : pgApplyRow cc u st a with
  | error e => exact ⟨e, pgRun_cons_err rest hap⟩
  | ok st2 =>
    obtain ⟨e, he⟩ := pgRun_err_of_touched st2 hb (hk ▸ hall)
      (hk ▸ pgApplyRow_ok_touched hall hap)
    exact ⟨e, (pgRun_cons_ok rest hap).trans he⟩

theorem pgRun_err_front {cc u : List String} :
    ∀ (l1 : List PgRow) {rows : List PgRow},
      (∀ st : PgExec, ∃ e, pgRun cc u st rows = .error e) →
      ∀ st : PgExec, ∃ e, pgRun cc u st (l1 ++ rows) = .error e := by
  intro l1
  induction l1 with
  | nil => intro rows h st; exact h st
  | cons a as ih =>
    intro rows h st
    cases hap : pgApplyRow cc u st a with
    | error e => exact ⟨e, pgRun_cons_err _ hap⟩
    | ok st2 =>
      obtain ⟨e, he⟩ := ih h st2
      exact ⟨e, (pgRun_cons_ok _ hap).trans he⟩

theorem pgUpsert_idem {t : List PgRow} {cc dc : List String} {rows : List Row}
    {t1 : List PgRow} {n : Nat}
    (hkeys : ∀ r ∈ rows, ∀ c ∈ cc, (getCol r c).isSome = true)
    (h1 : pgUpsert t cc dc rows = .ok (t1, n)) :
    pgUpsert t1 cc dc rows = .ok (t1, rows.length) := by
  cases rows with
  | nil =>
    simp only [pgUpsert, List.isEmpty_nil, if_pos] at h1 ⊢
    obtain ⟨rfl, -⟩ := Prod.mk.injEq _ _ _ _ ▸ Except.ok.inj h1
    rfl
  | cons r0 rest =>
    have hdisj : ∀ c ∈ cc, c ∉ dc.filter (fun c => !cc.contains c) := by
      intro c hc hcu
      have h2 := (List.mem_filter.mp hcu).2
      simp at h2
      exact h2 hc
    have hsub_cc : ∀ c ∈ cc, c ∈ jsDedup (cc ++ dc) :=
      fun c hc => mem_jsDedup (List.mem_append_left _ hc)
    have hsub_u : ∀ c ∈ dc.filter (fun c => !cc.contains c), c ∈ jsDedup (cc ++ dc) :=
      fun c hc => mem_jsDedup (List.mem_append_right _ (List.mem_filter.mp hc).1)
    have hgood : ∀ nr ∈ (r0 :: rest).map (pgRowOf (jsDedup (cc ++ dc))),
        (pgKey cc nr).all (fun v => v.isSome) = true ∧
        updateCols (dc.filter (fun c => !cc.contains c)) nr nr = nr := by
      intro nr hnr
      obtain ⟨r, hr, rfl⟩ := List.mem_map.mp hnr
      constructor
      · rw [pgKey_pgRowOf hsub_cc]
        rw [List.all_eq_true]
        intro v hv
        obtain ⟨c, hc, rfl⟩ := List.mem_map.mp hv
        exact hkeys r hr c hc
      · exact pgRowOf_selfFix hsub_u r
    simp only [pgUpsert, List.isEmpty_cons, if_false, Bool.false_eq_true] at h1 ⊢
    cases hrun : pgRun cc (dc.filter (fun c => !cc.contains c))
        ⟨t, [], 0⟩ ((r0 :: rest).map (pgRowOf (jsDedup (cc ++ dc)))) with
    | error e =>
      rw [hrun] at h1
      exact Except.noConfusion h1
    | ok stF =>
      rw [hrun] at h1
      have hpair : (stF.table, stF.count) = (t1, n) := Except.ok.inj h1
      have htbl : stF.table = t1 := congrArg Prod.fst hpair
      obtain ⟨hfacts, hpw⟩ := pgRun_call1 hdisj hgood hrun
      have hnoop := pgRun_noop ⟨t1, [], 0⟩
        (fun nr hnr => ⟨(hgood nr hnr).1, by
          have := (hfacts nr hnr).1
          rw [htbl] at this
          exact this, List.not_mem_nil _⟩) hpw
      obtain ⟨tc, hrun2⟩ := hnoop
      rw [hrun2]
      show Except.ok (t1, 0 + ((r0 :: rest).map (pgRowOf (jsDedup (cc ++ dc)))).length) =
        Except.ok (t1, (r0 :: rest).length)
      rw [List.length_map, Nat.zero_add]

theorem pgUpsert_dup_key_error {t : List PgRow} {cc dc : List String}
    (l1 : List Row) {l2 l3 : List Row} {r1 r2 : Row}
    (hk : cc.map (getCol r1) = cc.map (getCol r2))
    (hall : (cc.map (getCol r1)).all (fun v => v.isSome) = true) :
    ∃ e, pgUpsert t cc dc (l1 ++ r1 :: l2 ++ r2 :: l3) = .error e := by
  have hsub_cc : ∀ c ∈ cc, c ∈ jsDedup (cc ++ dc) :=
    fun c hc => mem_jsDedup (List.mem_append_left _ hc)
  have hk1 : pgKey cc (pgRowOf (jsDedup (cc ++ dc)) r1) =
      pgKey cc (pgRowOf (jsDedup (cc ++ dc)) r2) := by
    rw [pgKey_pgRowOf hsub_cc, pgKey_pgRowOf hsub_cc, hk]
  have hall1 : (pgKey cc (pgRowOf (jsDedup (cc ++ dc)) r1)).all
      (fun v => v.isSome) = true := by
    rw [pgKey_pgRowOf hsub_cc]
    exact hall
  have hmain : ∀ st : PgExec, ∃ e, pgRun cc (dc.filter (fun c => !cc.contains c)) st
      ((r1 :: (l2 ++ r2 :: l3)).map (pgRowOf (jsDedup (cc ++ dc)))) = .error e := by
    intro st
    rw [List.map_cons]
    exact pgRun_err_pair
      (List.mem_map_of_mem _ (List.mem_append_right _ (List.mem_cons_self r2 l3)))
      hk1 hall1 st
  obtain ⟨e, he⟩ := pgRun_err_front (l1.map (pgRowOf (jsDedup (cc ++ dc)))) hmain ⟨t, [], 0⟩
  refine ⟨e, ?_⟩
  have hne : (l1 ++ r1 :: l2 ++ r2 :: l3).isEmpty = false := by
    cases hcase : l1 ++ r1 :: l2 ++ r2 :: l3 with
    | nil => exact absurd hcase (by simp)
    | cons a b => rfl
  simp only [pgUpsert, hne, Bool.false_eq_true, if_false]
  rw [show l1 ++ r1 :: l2 ++ r2 :: l3 = l1 ++ (r1 :: (l2 ++ r2 :: l3)) by simp,
      List.map_append, he]
  rfl

theorem pgMerge_structure {cc u : List String} {nr : PgRow} :
    ∀ {t t2 : List PgRow}, pgMerge cc u nr t = some t2 →
      ∃ pre sr post, t = pre ++ sr :: post ∧
        t2 = pre ++ updateCols u sr nr :: post ∧
        (∀ x ∈ pre, pgKey cc x ≠ pgKey cc nr) ∧ pgKey cc sr = pgKey cc nr := by
  intro t
  induction t with
  | nil => intro t2 h; cases h
  | cons r rs ih =>
    intro t2 h
    by_cases hk : pgKey cc r = pgKey cc nr
    · rw [pgMerge_cons_of_eq hk] at h
      obtain rfl : updateCols u r nr :: rs = t2 := Option.some.inj h
      exact ⟨[], r, rs, by simp, by simp, fun x hx => absurd hx (List.not_mem_nil x), hk⟩
    · rw [pgMerge_cons_of_ne hk] at h
      cases hm : pgMerge cc u nr rs with
      | none => rw [hm] at h; cases h
      | some rs2 =>
        rw [hm] at h
        obtain rfl : r :: rs2 = t2 := Option.some.inj h
        obtain ⟨pre, sr, post, h1, h2, h3, h4⟩ := ih hm
        refine ⟨r :: pre, sr, post, by rw [h1]; rfl, by rw [h2]; rfl, ?_, h4⟩
        intro x hx
        rcases List.mem_cons.mp hx with hx1 | hx1
        · exact hx1 ▸ hk
        · exact h3 x hx1

theorem map_pointwise_of_eq {α β : Type} {f g : α → β} :
    ∀ {l : List α}, l.map f = l.map g → ∀ x ∈ l, f x = g x := by
  intro l
  induction l with
  | nil => intro _ x hx; cases hx
  | cons a as ih =>
    intro h x hx
    rw [List.map_cons, List.map_cons] at h
    injection h with h1 h2
    rcases List.mem_cons.mp hx with hx1 | hx1
    · exact hx1 ▸ h1
    · exact ih h2 x hx1

theorem pgUpsert_overwrite {t : List PgRow} {cc dc : List String} {r : Row}
    (hall : (cc.map (getCol r)).all (fun v => v.isSome) = true)
    (hconf : ∃ sr ∈ t, pgKey cc sr = cc.map (getCol r)) :
    ∃ t2 sr2, pgUpsert t cc dc [r] = .ok (t2, 1) ∧
      t2.find? (fun x => pgKey cc x == cc.map (getCol r)) = some sr2 ∧
      ∀ c ∈ cc ++ dc, pgread sr2 c = getCol r c := by
  have hsub_cc : ∀ c ∈ cc, c ∈ jsDedup (cc ++ dc) :=
    fun c hc => mem_jsDedup (List.mem_append_left _ hc)
  have hsub_dc : ∀ c ∈ dc, c ∈ jsDedup (cc ++ dc) :=
    fun c hc => mem_jsDedup (List.mem_append_right _ hc)
  have hdisj : ∀ c ∈ cc, c ∉ dc.filter (fun c => !cc.contains c) := by
    intro c hc hcu
    have h2 := (List.mem_filter.mp hcu).2
    simp at h2
    exact h2 hc
  have hknr : pgKey cc (pgRowOf (jsDedup (cc ++ dc)) r) = cc.map (getCol r) :=
    pgKey_pgRowOf hsub_cc r
  cases hm : pgMerge cc (dc.filter (fun c => !cc.contains c))
      (pgRowOf (jsDedup (cc ++ dc)) r) t with
  | none =>
    obtain ⟨sr, hsr, hsrk⟩ := hconf
    exact absurd (hsrk.trans hknr.symm) (pgMerge_eq_none.mp hm sr hsr)
  | some t2 =>
    obtain ⟨pre, sr, post, hsplit, ht2, hpre, hsrk⟩ := pgMerge_structure hm
    have hap : pgApplyRow cc (dc.filter (fun c => !cc.contains c)) ⟨t, [], 0⟩
        (pgRowOf (jsDedup (cc ++ dc)) r) =
        .ok ⟨t2, [pgKey cc (pgRowOf (jsDedup (cc ++ dc)) r)], 1⟩ := by
      rw [pgApplyRow_eq, if_pos (by rw [hknr]; exact hall), if_neg (by simp), hm]
    have hrun : pgRun cc (dc.filter (fun c => !cc.contains c)) ⟨t, [], 0⟩
        ([r].map (pgRowOf (jsDedup (cc ++ dc)))) =
        .ok ⟨t2, [pgKey cc (pgRowOf (jsDedup (cc ++ dc)) r)], 1⟩ := by
      rw [List.map_cons, List.map_nil, pgRun_cons_ok [] hap]
      rfl
    refine ⟨t2, updateCols (dc.filter (fun c => !cc.contains c)) sr
      (pgRowOf (jsDedup (cc ++ dc)) r), ?_, ?_, ?_⟩
    · simp only [pgUpsert, List.isEmpty_cons, Bool.false_eq_true, if_false]
      rw [hrun]
      rfl
    · rw [ht2, List.find?_append]
      have hprenone : pre.find? (fun x => pgKey cc x == cc.map (getCol r)) = none := by
        rw [List.find?_eq_none]
        intro x hx
        simp only [beq_iff_eq]
        exact fun hcon => hpre x hx (hcon.trans hknr.symm)
      rw [hprenone]
      have hherd : pgKey cc (updateCols (dc.filter (fun c => !cc.contains c)) sr
          (pgRowOf (jsDedup (cc ++ dc)) r)) = cc.map (getCol r) := by
        rw [pgKey_updateCols hdisj, hsrk, hknr]
      rw [@List.find?_cons_of_pos _ (fun x => pgKey cc x == cc.map (getCol r)) _ _
        (by simpa using hherd)]
      rfl
    · intro c hc
      by_cases hcu : c ∈ dc.filter (fun c => !cc.contains c)
      · obtain ⟨ha, hh⟩ := @updateCols_AllC_HasC (dc.filter (fun c => !cc.contains c))
          (pgRowOf (jsDedup (cc ++ dc)) r) sr c hcu
        rw [pgread_of_AllC_HasC ha hh]
        exact pgread_pgRowOf (hsub_dc c (List.mem_filter.mp hcu).1) r
      · have hccm : c ∈ cc := by
          rcases List.mem_append.mp hc with h1 | h1
          · exact h1
          · by_contra hnotcc
            exact hcu (List.mem_filter.mpr ⟨h1, by simpa using hnotcc⟩)
        rw [pgread_updateCols_other hcu]
        have hsrk2 : cc.map (pgread sr) =
            cc.map (pgread (pgRowOf (jsDedup (cc ++ dc)) r)) := hsrk
        rw [map_pointwise_of_eq hsrk2 c hccm]
        exact pgread_pgRowOf (hsub_cc c hccm) r

/-! ## Helper lemmas: cursor store and orchestrator -/

theorem find?_set_map_self {β : Type} {k : String} (v : β) :
    ∀ {m : List (String × β)}, (m.find? (fun p => p.1 == k)).isSome →
    (m.map (fun p => if p.1 == k then (k, v) else p)).find? (fun p => p.1 == k) =
      some (k, v) := by
  intro m
  induction m with
  | nil => intro h; cases h
  | cons p rest ih =>
    intro hs
    rw [List.map_cons]
    by_cases hp1 : p.1 = k
    · rw [if_pos (by simpa using hp1)]
      rw [@List.find?_cons_of_pos _ (fun q => q.1 == k) (k, v) _ (by simp)]
    · rw [if_neg (by simpa using hp1)]
      have hs2 : (rest.find? (fun p => p.1 == k)).isSome := by
        rw [@List.find?_cons_of_neg _ (fun q => q.1 == k) p _ (by simpa using hp1)] at hs
        exact hs
      rw [@List.find?_cons_of_neg _ (fun q => q.1 == k) p _ (by simpa using hp1)]
      exact ih hs2

theorem find?_set_map_other {β : Type} {k k2 : String} (v : β) (hne : k ≠ k2) :
    ∀ {m : List (String × β)},
    (m.map (fun p => if p.1 == k2 then (k2, v) else p)).find? (fun p => p.1 == k) =
      m.find? (fun p => p.1 == k) := by
  intro m
  induction m with
  | nil => rfl
  | cons p rest ih =>
    rw [List.map_cons]
    by_cases hp1 : p.1 = k2
    · have hpc : ¬((p.1 == k) = true) := by
        simp only [beq_iff_eq]
        exact fun h => hne (h.symm.trans hp1)
      have hcc : ¬((((k2, v) : String × β).1 == k) = true) := by
        simp only [beq_iff_eq]
        exact fun h => hne h.symm
      rw [if_pos (by simpa using hp1),
          @List.find?_cons_of_neg _ (fun q => q.1 == k) (k2, v) _ hcc,
          @List.find?_cons_of_neg _ (fun q => q.1 == k) p _ hpc]
      exact ih
    · rw [if_neg (by simpa using hp1)]
      by_cases hpc : p.1 = k
      · rw [@List.find?_cons_of_pos _ (fun q => q.1 == k) p _ (by simpa using hpc),
            @List.find?_cons_of_pos _ (fun q => q.1 == k) p _ (by simpa using hpc)]
      · rw [@List.find?_cons_of_neg _ (fun q => q.1 == k) p _ (by simpa using hpc),
            @List.find?_cons_of_neg _ (fun q => q.1 == k) p _ (by simpa using hpc)]
        exact ih

theorem jsGet_jsSet_self (m : List (String × EtlResult)) (k : String) (v : EtlResult) :
    jsGet (jsSet m k v) k = some v := by
  simp only [jsSet]
  split
  · rename_i hsome
    simp only [jsGet, find?_set_map_self v hsome]
    rfl
  · rename_i hnone
    have hn : m.find? (fun p => p.1 == k) = none := by
      cases hcase : m.find? (fun p => p.1 == k) with
      | none => rfl
      | some q => exact absurd (by simp [hcase]) hnone
    simp only [jsGet, List.find?_append, hn]
    rw [@List.find?_cons_of_pos _ (fun q => q.1 == k) (k, v) _ (by simp)]
    rfl

theorem jsGet_jsSet_other {k k2 : String} (hne : k ≠ k2)
    (m : List (String × EtlResult)) (v : EtlResult) :
    jsGet (jsSet m k2 v) k = jsGet m k := by
  simp only [jsSet]
  split
  · simp only [jsGet, find?_set_map_other v hne]
  · have hcc : ¬((((k2, v) : String × EtlResult).1 == k) = true) := by
      simp only [beq_iff_eq]
      exact fun h => hne h.symm
    have h1 : List.find? (fun q => q.1 == k) [(k2, v)] = none :=
      (@List.find?_cons_of_neg _ (fun q => q.1 == k) (k2, v) [] hcc).trans List.find?_nil
    simp only [jsGet, List.find?_append, h1]
    cases m.find? (fun p => p.1 == k) <;> rfl

theorem pgUpsert_cursor (ct : List PgRow) (s iso : String) :
    pgUpsert ct ["source"] ["source", "since"] [[("source", s), ("since", iso)]] =
      match pgMerge ["source"] ["since"] [("source", some s), ("since", some iso)] ct with
      | some t2 => .ok (t2, 1)
      | none => .ok (ct ++ [[("source", some s), ("since", some iso)]], 1) := by
  cases hm : pgMerge ["source"] ["since"] [("source", some s), ("since", some iso)] ct with
  | some t2 =>
    have hap : pgApplyRow ["source"] ["since"] ⟨ct, [], 0⟩
        [("source", some s), ("since", some iso)] = .ok ⟨t2, [[some s]], 1⟩ := by
      rw [pgApplyRow_eq,
          if_pos (show ((pgKey ["source"] [("source", some s), ("since", some iso)]).all
            fun v => v.isSome) = true from rfl),
          if_neg (by simp)]
      rw [show (PgExec.mk ct [] 0).table = ct from rfl, hm]
      rfl
    have hrun := pgRun_cons_ok ([] : List PgRow) hap
    show (pgRun ["source"] ["since"] ⟨ct, [], 0⟩
        [[("source", some s), ("since", some iso)]]).map
        (fun st => (st.table, st.count)) = .ok (t2, 1)
    rw [hrun]
    rfl
  | none =>
    have hap : pgApplyRow ["source"] ["since"] ⟨ct, [], 0⟩
        [("source", some s), ("since", some iso)] =
        .ok ⟨ct ++ [[("source", some s), ("since", some iso)]], [[some s]], 1⟩ := by
      rw [pgApplyRow_eq,
          if_pos (show ((pgKey ["source"] [("source", some s), ("since", some iso)]).all
            fun v => v.isSome) = true from rfl),
          if_neg (by simp)]
      rw [show (PgExec.mk ct [] 0).table = ct from rfl, hm]
      rfl
    have hrun := pgRun_cons_ok ([] : List PgRow) hap
    show (pgRun ["source"] ["since"] ⟨ct, [], 0⟩
        [[("source", some s), ("since", some iso)]]).map
        (fun st => (st.table, st.count)) =
      .ok (ct ++ [[("source", some s), ("since", some iso)]], 1)
    rw [hrun]
    rfl

theorem setCursor_eq (ct : List PgRow) (s iso : String) :
    setCursor ct s iso =
      match pgMerge ["source"] ["since"] [("source", some s), ("since", some iso)] ct with
      | some t2 => t2
      | none => ct ++ [[("source", some s), ("since", some iso)]] := by
  cases hm : pgMerge ["source"] ["since"] [("source", some s), ("since", some iso)] ct with
  | some t2 =>
    have h := pgUpsert_cursor ct s iso
    rw [hm] at h
    simp [setCursor, h]
  | none =>
    have h := pgUpsert_cursor ct s iso
    rw [hm] at h
    simp [setCursor, h]

theorem getCursor_setCursor_self (ct : List PgRow) (s iso : String) :
    getCursor (setCursor ct s iso) s = some iso := by
  rw [setCursor_eq]
  cases hm : pgMerge ["source"] ["since"] [("source", some s), ("since", some iso)] ct with
  | none =>
    have hnone : ct.find? (fun r => pgread r "source" == some s) = none := by
      rw [List.find?_eq_none]
      intro x hx
      have hnk := pgMerge_eq_none.mp hm x hx
      simp only [beq_iff_eq]
      intro hcon
      apply hnk
      show [pgread x "source"] =
        pgKey ["source"] [("source", some s), ("since", some iso)]
      rw [hcon]
      rfl
    have hone : List.find? (fun r => pgread r "source" == some s)
        [[("source", some s), ("since", some iso)]] =
        some [("source", some s), ("since", some iso)] := by
      rw [@List.find?_cons_of_pos _ (fun r => pgread r "source" == some s) _ []
        (by show (pgread [("source", some s), ("since", some iso)] "source" == some s) = true
            rw [show pgread [("source", some s), ("since", some iso)] "source" = some s
              from rfl]
            exact beq_self_eq_true _)]
    simp only [getCursor, List.find?_append, hnone, Option.none_or, hone]
    rfl
  | some t2 =>
    obtain ⟨pre, sr, post, h1, h2, hpre, hk⟩ := pgMerge_structure hm
    subst h2
    have hkeyv : pgread sr "source" = some s := by
      have h5 : [pgread sr "source"] = [some s] := hk
      injection h5
    have hprenone : pre.find? (fun r => pgread r "source" == some s) = none := by
      rw [List.find?_eq_none]
      intro x hx
      simp only [beq_iff_eq]
      intro hcon
      apply hpre x hx
      show [pgread x "source"] = [some s]
      rw [hcon]
    have hhead : (pgread (updateCols ["since"] sr
        [("source", some s), ("since", some iso)]) "source" == some s) = true := by
      rw [pgread_updateCols_other (by decide), hkeyv]
      simp
    simp only [getCursor, List.find?_append, hprenone, Option.none_or]
    rw [@List.find?_cons_of_pos _ (fun r => pgread r "source" == some s) _ post hhead]
    show pgread (updateCols ["since"] sr
      [("source", some s), ("since", some iso)]) "since" = some iso
    rw [updateCols_cons]
    show pgread (setPgCol sr "since" (some iso)) "since" = some iso
    exact pgread_of_AllC_HasC (AllC_setPgCol_self sr "since" (some iso))
      (HasC_setPgCol_self sr "since" (some iso))

theorem getCursor_setCursor_other {s s2 : String} (hne : s ≠ s2)
    (ct : List PgRow) (iso : String) :
    getCursor (setCursor ct s2 iso) s = getCursor ct s := by
  rw [setCursor_eq]
  cases hm : pgMerge ["source"] ["since"] [("source", some s2), ("since", some iso)] ct with
  | none =>
    have h1 : List.find? (fun r => pgread r "source" == some s)
        [[("source", some s2), ("since", some iso)]] = none := by
      rw [@List.find?_cons_of_neg _ (fun r => pgread r "source" == some s) _ []
        (by
          show ¬((some s2 == some s) = true)
          simp only [beq_iff_eq, Option.some.injEq]
          exact fun h => hne h.symm), List.find?_nil]
    simp only [getCursor, List.find?_append, h1]
    cases ct.find? (fun r => pgread r "source" == some s) <;> rfl
  | some t2 =>
    obtain ⟨pre, sr, post, h1, h2, hpre, hk⟩ := pgMerge_structure hm
    subst h2
    rw [h1]
    have hsr_source : pgread sr "source" = some s2 := by
      have h5 : [pgread sr "source"] = [some s2] := hk
      injection h5
    have hsrpred : ¬((pgread sr "source" == some s) = true) := by
      rw [hsr_source]
      simp only [beq_iff_eq, Option.some.injEq]
      exact fun h => hne h.symm
    have hupdpred : ¬((pgread (updateCols ["since"] sr
        [("source", some s2), ("since", some iso)]) "source" == some s) = true) := by
      rw [pgread_updateCols_other (by decide), hsr_source]
      simp only [beq_iff_eq, Option.some.injEq]
      exact fun h => hne h.symm
    simp only [getCursor, List.find?_append]
    cases hpre2 : pre.find? (fun r => pgread r "source" == some s) with
    | some q => rfl
    | none =>
      rw [@List.find?_cons_of_neg _ (fun r => pgread r "source" == some s) _ post hupdpred,
          @List.find?_cons_of_neg _ (fun r => pgread r "source" == some s) sr post hsrpred]

theorem runEtls_get_notin {σ : Type} (cb : CursorBackend σ)
    (runners : String → Except String EtlResult) (u : String) :
    ∀ (sources : List String) (p : Bool) (results : List (String × EtlResult)) (cs : σ)
      {s : String}, s ∉ sources →
      jsGet (runEtls cb runners u sources p results cs).1 s = jsGet results s := by
  intro sources
  induction sources with
  | nil => intro p results cs s _; rfl
  | cons s0 rest ih =>
    intro p results cs s hs
    have hne : s ≠ s0 := fun h => hs (h ▸ List.mem_cons_self s0 rest)
    have hrest : s ∉ rest := fun h => hs (List.mem_cons_of_mem s0 h)
    simp only [runEtls]
    by_cases hc0 : ETL_SOURCES.contains s0 = true
    · rw [if_pos hc0, ih _ _ _ hrest, jsGet_jsSet_other hne]
    · rw [if_neg hc0, ih _ _ _ hrest]

theorem runEtls_result {σ : Type} (cb : CursorBackend σ)
    (runners : String → Except String EtlResult) (u : String) :
    ∀ (sources : List String) (p : Bool) (results : List (String × EtlResult)) (cs : σ)
      {s : String}, s ∈ sources → ETL_SOURCES.contains s = true →
      jsGet (runEtls cb runners u sources p results cs).1 s =
        some (caught (runners s)) := by
  intro sources
  induction sources with
  | nil => intro p results cs s hs; cases hs
  | cons s0 rest ih =>
    intro p results cs s hs hcont
    simp only [runEtls]
    by_cases hc0 : ETL_SOURCES.contains s0 = true
    · rw [if_pos hc0]
      by_cases hsr : s ∈ rest
      · exact ih _ _ _ hsr hcont
      · have hss0 : s = s0 := (List.mem_cons.mp hs).resolve_right hsr
        subst hss0
        rw [runEtls_get_notin cb runners u rest _ _ _ hsr, jsGet_jsSet_self]
    · rw [if_neg hc0]
      have hsr : s ∈ rest := by
        rcases List.mem_cons.mp hs with h1 | h1
        · exact absurd (h1 ▸ hcont) hc0
        · exact h1
      exact ih _ _ _ hsr hcont

theorem runEtls_cursor_notin (runners : String → Except String EtlResult) (u : String) :
    ∀ (sources : List String) (p : Bool) (results : List (String × EtlResult))
      (ct : List PgRow) {s : String}, s ∉ sources →
      getCursor (runEtls pgCursorBackend runners u sources p results ct).2 s =
        getCursor ct s := by
  intro sources
  induction sources with
  | nil => intro p results ct s _; rfl
  | cons s0 rest ih =>
    intro p results ct s hs
    have hne : s ≠ s0 := fun h => hs (h ▸ List.mem_cons_self s0 rest)
    have hrest : s ∉ rest := fun h => hs (List.mem_cons_of_mem s0 h)
    simp only [runEtls]
    by_cases hc0 : ETL_SOURCES.contains s0 = true
    · rw [if_pos hc0, ih _ _ _ hrest]
      by_cases hok : (p && (caught (runners s0)).ok) = true
      · rw [if_pos hok]
        exact getCursor_setCursor_other hne ct u
      · rw [if_neg hok]
    · rw [if_neg hc0, ih _ _ _ hrest]

theorem runEtls_cursor_facts (runners : String → Except String EtlResult) (u : String) :
    ∀ (sources : List String) (results : List (String × EtlResult))
      (ct : List PgRow) {s : String}, s ∈ sources → ETL_SOURCES.contains s = true →
      ((caught (runners s)).ok = true →
        getCursor (runEtls pgCursorBackend runners u sources true results ct).2 s =
          some u) ∧
      ((caught (runners s)).ok = false →
        getCursor (runEtls pgCursorBackend runners u sources true results ct).2 s =
          getCursor ct s) := by
  intro sources
  induction sources with
  | nil => intro results ct s hs; cases hs
  | cons s0 rest ih =>
    intro results ct s hs hcont
    simp only [runEtls]
    by_cases hc0 : ETL_SOURCES.contains s0 = true
    · rw [if_pos hc0]
      by_cases hsr : s ∈ rest
      · by_cases hok0 : (caught (runners s0)).ok = true
        · rw [if_pos (by simp [hok0])]
          have hmain := ih (jsSet results s0 (caught (runners s0)))
            (setCursor ct s0 u) hsr hcont
          constructor
          · exact fun hok => hmain.1 hok
          · intro hnok
            have hss0 : s ≠ s0 := by
              intro h
              rw [h, hok0] at hnok
              cases hnok
            exact (hmain.2 hnok).trans (getCursor_setCursor_other hss0 ct u)
        · rw [if_neg (by simp [hok0])]
          exact ih _ ct hsr hcont
      · have hss0 : s = s0 := (List.mem_cons.mp hs).resolve_right hsr
        subst hss0
        constructor
        · intro hok
          rw [if_pos (by simp [hok])]
          exact (runEtls_cursor_notin runners u rest _ _ _ hsr).trans
            (getCursor_setCursor_self ct s u)
        · intro hnok
          rw [if_neg (by simp [hnok])]
          exact runEtls_cursor_notin runners u rest _ _ _ hsr
    · rw [if_neg hc0]
      have hsr : s ∈ rest := by
        rcases List.mem_cons.mp hs with h1 | h1
        · exact absurd (h1 ▸ hcont) hc0
        · exact h1
      exact ih _ _ hsr hcont

/-! ## Helper lemmas: Steam highwater loop -/

theorem steamDateLoop_head {α : Type} (resp : Nat → SteamResp α) :
    ∀ {fuel hw : Nat} {l : List Nat}, steamDateLoop resp fuel hw = some l →
      ∃ l2, l = hw :: l2 := by
  intro fuel
  cases fuel with
  | zero => intro hw l h; cases h
  | succ f =>
    intro hw l h
    simp only [steamDateLoop] at h
    split at h
    · cases hloop : steamDateLoop resp f (resp hw).maxId with
      | none => rw [hloop] at h; cases h
      | some l2 =>
        rw [hloop] at h
        exact ⟨l2, (Option.some.inj h).symm⟩
    · exact ⟨[], (Option.some.inj h).symm⟩

theorem steamDateLoop_chain {α : Type} (resp : Nat → SteamResp α) :
    ∀ (fuel : Nat) {hw : Nat} {l : List Nat},
      steamDateLoop resp fuel hw = some l → List.Chain' (· < ·) l := by
  intro fuel
  induction fuel with
  | zero => intro hw l h; cases h
  | succ f ih =>
    intro hw l h
    simp only [steamDateLoop] at h
    split at h
    · rename_i hcond
      have hlt : hw < (resp hw).maxId := by
        simp only [Bool.and_eq_true, decide_eq_true_eq] at hcond
        exact hcond.1
      cases hloop : steamDateLoop resp f (resp hw).maxId with
      | none => rw [hloop] at h; cases h
      | some l2 =>
        rw [hloop] at h
        obtain rfl : hw :: l2 = l := Option.some.inj h
        obtain ⟨l3, rfl⟩ := steamDateLoop_head resp hloop
        rw [List.chain'_cons]
        exact ⟨hlt, ih hloop⟩
    · obtain rfl : [hw] = l := Option.some.inj h
      exact List.chain'_singleton hw

theorem steamDateLoop_terminates {α : Type} (resp : Nat → SteamResp α) {B : Nat}
    (hbound : ∀ h, (resp h).maxId ≤ B) :
    ∀ (fuel hw : Nat), B - hw < fuel → (steamDateLoop resp fuel hw).isSome = true := by
  intro fuel
  induction fuel with
  | zero => intro hw h; omega
  | succ f ih =>
    intro hw hlt
    simp only [steamDateLoop]
    by_cases hcond : (decide (hw < (resp hw).maxId) && !(resp hw).results.isEmpty) = true
    · rw [if_pos hcond]
      have hm : hw < (resp hw).maxId := by
        simp only [Bool.and_eq_true, decide_eq_true_eq] at hcond
        exact hcond.1
      have hb := hbound hw
      have hs := ih (resp hw).maxId (by omega)
      cases hloop : steamDateLoop resp f (resp hw).maxId with
      | none => rw [hloop] at hs; cases hs
      | some l2 => rfl
    · rw [if_neg hcond]; rfl

/-! ## Claim theorems -/

/-- Claim C1, counterexample: on the relational backend, replaying an
identical single-row batch reports `rowCount = 1` (the conflicting row is
counted as updated), not the 0 the claim requires. -/
theorem pg_second_call_rowcount_not_zero :
    pgUpsert [] ["id"] ["id", "v"] [[("id", "a"), ("v", "1")]] =
      .ok ([[("id", some "a"), ("v", some "1")]], 1) ∧
    pgUpsert [[("id", some "a"), ("v", some "1")]] ["id"] ["id", "v"]
      [[("id", "a"), ("v", "1")]] =
      .ok ([[("id", some "a"), ("v", some "1")]], 1) ∧ (1 : Nat) ≠ 0 :=
  ⟨rfl, rfl, one_ne_zero⟩

/-- Claim C1, amended: replaying an identical batch stores nothing new on
either backend; the flat backend reports 0 on the second call (keys ⊆
data columns), while the relational backend leaves the stored table
unchanged but reports the batch length (rows whose key columns are all
present; NULL keys never conflict). -/
theorem upsert_idempotent_replay :
    (∀ (doc : Doc) (table : String) (cc dc : List String) (rows : List Row),
      cc ⊆ dc →
      sheetsUpsert (sheetsUpsert doc table cc dc rows).1 table cc dc rows =
        ((sheetsUpsert doc table cc dc rows).1, 0)) ∧
    (∀ (t : List PgRow) (cc dc : List String) (rows : List Row) (t1 : List PgRow) (n : Nat),
      (∀ r ∈ rows, ∀ c ∈ cc, (getCol r c).isSome = true) →
      pgUpsert t cc dc rows = .ok (t1, n) →
      pgUpsert t1 cc dc rows = .ok (t1, rows.length)) :=
  ⟨fun _ _ _ _ _ hsub => sheetsUpsert_idem hsub,
   fun _ _ _ _ _ _ hkeys h1 => pgUpsert_idem hkeys h1⟩

/-- Witness for C1 at a concrete spreadsheet, table and batch. -/
theorem upsert_idempotent_replay_witness :
    sheetsUpsert (sheetsUpsert [("Stripe", [])] "stripe_orders" ["id"] ["id", "v"]
        [[("id", "a"), ("v", "1")]]).1 "stripe_orders" ["id"] ["id", "v"]
        [[("id", "a"), ("v", "1")]] =
      ((sheetsUpsert [("Stripe", [])] "stripe_orders" ["id"] ["id", "v"]
        [[("id", "a"), ("v", "1")]]).1, 0) ∧
    pgUpsert [[("id", some "a"), ("v", some "1")]] ["id"] ["id", "v"]
        [[("id", "a"), ("v", "1")]] =
      .ok ([[("id", some "a"), ("v", some "1")]], 1) :=
  ⟨upsert_idempotent_replay.1 [("Stripe", [])] "stripe_orders" ["id"] ["id", "v"]
      [[("id", "a"), ("v", "1")]]
      (by intro x hx; rw [List.mem_singleton] at hx; exact hx ▸ List.mem_cons_self _ _),
   upsert_idempotent_replay.2 [] ["id"] ["id", "v"] [[("id", "a"), ("v", "1")]]
      [[("id", some "a"), ("v", some "1")]] 1 (by decide) rfl⟩

/-- Claim C2, counterexample: on the relational backend, a batch with two
rows sharing a key makes the single INSERT fail with a cardinality
violation instead of completing. -/
theorem pg_dup_batch_raises :
    pgUpsert [] ["id"] ["id", "v"]
      [[("id", "a"), ("v", "1")], [("id", "a"), ("v", "2")]] =
      .error "ON CONFLICT DO UPDATE command cannot affect row a second time" := rfl

/-- Claim C2, amended: on the flat backend a batch with duplicate keys
stores exactly one row for that key (first occurrence kept); on the
relational backend the call raises a cardinality-violation error (the
atomic statement stores nothing, so no duplicate is ever stored). -/
theorem dedup_within_batch :
    (∀ (doc : Doc) (table : String) (cc dc : List String) (rows : List Row)
        (E : List Row) (r1 r2 : Row),
      cc ⊆ dc → docGet doc (tabNameOf table) = some E →
      r1 ∈ rows → r2 ∈ rows → rowKey cc r1 = rowKey cc r2 →
      rowKey cc r1 ∉ E.map (rowKey cc) →
      (((docGet ((sheetsUpsert doc table cc dc rows).1) (tabNameOf table)).getD []).map
        (rowKey cc)).count (rowKey cc r1) = 1) ∧
    (∀ (t : List PgRow) (cc dc : List String) (l1 l2 l3 : List Row) (r1 r2 : Row),
      cc.map (getCol r1) = cc.map (getCol r2) →
      (cc.map (getCol r1)).all (fun v => v.isSome) = true →
      ∃ e, pgUpsert t cc dc (l1 ++ r1 :: l2 ++ r2 :: l3) = .error e) :=
  ⟨fun _ _ _ _ _ _ _ _ hsub hdg hr1 _ _ hfresh =>
      sheetsUpsert_dedup_count hsub hdg hr1 hfresh,
   fun _ _ _ l1 _ _ _ _ hk hall => pgUpsert_dup_key_error l1 hk hall⟩

/-- Witness for C2 at a concrete duplicate-key batch. -/
theorem dedup_within_batch_witness :
    (((docGet ((sheetsUpsert [("Stripe", [])] "stripe_orders" ["id"] ["id", "v"]
        [[("id", "a"), ("v", "1")], [("id", "a"), ("v", "2")]]).1)
        (tabNameOf "stripe_orders")).getD []).map
      (rowKey ["id"])).count (rowKey ["id"] [("id", "a"), ("v", "1")]) = 1 ∧
    ∃ e, pgUpsert ([] : List PgRow) ["id"] ["id", "v"]
      ([] ++ [("id", "a"), ("v", "1")] :: [] ++ [("id", "a"), ("v", "2")] :: []) =
      .error e :=
  ⟨dedup_within_batch.1 [("Stripe", [])] "stripe_orders" ["id"] ["id", "v"]
      [[("id", "a"), ("v", "1")], [("id", "a"), ("v", "2")]] []
      [("id", "a"), ("v", "1")] [("id", "a"), ("v", "2")]
      (by intro x hx; rw [List.mem_singleton] at hx; exact hx ▸ List.mem_cons_self _ _)
      rfl (by decide) (by decide) rfl (by decide),
   dedup_within_batch.2 [] ["id"] ["id", "v"] [] [] []
      [("id", "a"), ("v", "1")] [("id", "a"), ("v", "2")] rfl rfl⟩

/-- Claim C3, counterexample: in the Sheets build the cursor helpers are
disabled no-ops, so even after an ok result with persistence requested
the stored cursor is still absent, not the window's `untilUtc`. -/
theorem disabled_cursor_not_advanced :
    (runEtls disabledCursorBackend (fun _ => .ok ⟨true, some 3, none⟩)
        "2024-01-02T00:00:00.000Z" ["stripe"] true [] ()).1 =
      [("stripe", ⟨true, some 3, none⟩)] ∧
    disabledCursorBackend.get
      (runEtls disabledCursorBackend (fun _ => .ok ⟨true, some 3, none⟩)
        "2024-01-02T00:00:00.000Z" ["stripe"] true [] ()).2 "stripe" = none ∧
    (none : Option Val) ≠ some "2024-01-02T00:00:00.000Z" :=
  ⟨rfl, rfl, by simp⟩

/-- Claim C3, amended: with the relational cursor helpers of
`src/lib/util.js`, a source whose result is ok has its stored cursor
advanced to the window's `untilUtc`, and a source whose result is not ok
keeps its previous cursor; the disabled helpers of the Sheets build
persist nothing, so there the cursor is never advanced even on ok. -/
theorem cursor_advanced_only_on_ok :
    ∀ (runners : String → Except String EtlResult) (untilUtc : String)
      (sources : List String) (results : List (String × EtlResult))
      (ct : List PgRow) (s : String),
      s ∈ sources → ETL_SOURCES.contains s = true →
      ((caught (runners s)).ok = true →
        getCursor (runEtls pgCursorBackend runners untilUtc sources true results ct).2 s =
          some untilUtc) ∧
      ((caught (runners s)).ok = false →
        getCursor (runEtls pgCursorBackend runners untilUtc sources true results ct).2 s =
          getCursor ct s) :=
  fun runners u sources results ct _ hs hcont =>
    runEtls_cursor_facts runners u sources results ct hs hcont

/-- Witness for C3: one ok source advances its cursor, one failed source
leaves its cursor untouched. -/
theorem cursor_advanced_only_on_ok_witness :
    getCursor (runEtls pgCursorBackend
      (fun s => if s == "meta" then .error "boom" else .ok ⟨true, some 2, none⟩)
      "2024-01-02" ["stripe", "meta"] true [] []).2 "stripe" = some "2024-01-02" ∧
    getCursor (runEtls pgCursorBackend
      (fun s => if s == "meta" then .error "boom" else .ok ⟨true, some 2, none⟩)
      "2024-01-02" ["stripe", "meta"] true [] []).2 "meta" =
      getCursor ([] : List PgRow) "meta" :=
  ⟨(cursor_advanced_only_on_ok
      (fun s => if s == "meta" then .error "boom" else .ok ⟨true, some 2, none⟩)
      "2024-01-02" ["stripe", "meta"] [] [] "stripe" (by decide) (by decide)).1 rfl,
   (cursor_advanced_only_on_ok
      (fun s => if s == "meta" then .error "boom" else .ok ⟨true, some 2, none⟩)
      "2024-01-02" ["stripe", "meta"] [] [] "meta" (by decide) (by decide)).2 rfl⟩

/-- Claim C4: the orchestrator reports, for every requested source with a
registered runner, exactly that source's own result — a raised error is
caught into `{ok:false, msg}` (never propagated), and the entry for a
source is `caught (runners s)` no matter what any sibling's runner did,
so one source's failure cannot prevent or alter the others. -/
theorem orchestrator_partial_failure_isolation :
    (∀ {σ : Type} (cb : CursorBackend σ)
      (runners : String → Except String EtlResult) (untilUtc : String)
      (sources : List String) (persist : Bool) (cs : σ) (s : String),
      s ∈ sources → ETL_SOURCES.contains s = true →
      jsGet (runEtls cb runners untilUtc sources persist [] cs).1 s =
        some (caught (runners s))) ∧
    (∀ m : String, caught (.error m) = ⟨false, none, some m⟩) :=
  ⟨fun cb runners u sources p cs _ hs hcont =>
      runEtls_result cb runners u sources p [] cs hs hcont,
   fun _ => rfl⟩

/-- Witness for C4: with the "meta" runner throwing, "stripe" still
reports its own ok result and "meta" reports the caught error. -/
theorem orchestrator_partial_failure_isolation_witness :
    jsGet (runEtls disabledCursorBackend
      (fun s => if s == "meta" then .error "boom" else .ok ⟨true, some 3, none⟩)
      "U" ["stripe", "meta", "tiktok"] false [] ()).1 "stripe" =
      some (caught ((fun s => if s == "meta" then .error "boom"
        else .ok ⟨true, some 3, none⟩) "stripe")) ∧
    jsGet (runEtls disabledCursorBackend
      (fun s => if s == "meta" then .error "boom" else .ok ⟨true, some 3, none⟩)
      "U" ["stripe", "meta", "tiktok"] false [] ()).1 "meta" =
      some (caught ((fun s => if s == "meta" then .error "boom"
        else .ok ⟨true, some 3, none⟩) "meta")) :=
  ⟨orchestrator_partial_failure_isolation.1 disabledCursorBackend
      (fun s => if s == "meta" then .error "boom" else .ok ⟨true, some 3, none⟩)
      "U" ["stripe", "meta", "tiktok"] false () "stripe" (by decide) (by decide),
   orchestrator_partial_failure_isolation.1 disabledCursorBackend
      (fun s => if s == "meta" then .error "boom" else .ok ⟨true, some 3, none⟩)
      "U" ["stripe", "meta", "tiktok"] false () "meta" (by decide) (by decide)⟩

/-- Claim C5, counterexample: in the flat backend a later upsert of a row
whose key already exists is skipped entirely — the stored row keeps the
OLD values, so the newer write does not win there. -/
theorem sheets_existing_key_keeps_old_row :
    sheetsUpsert [("Stripe", [[("id", "a"), ("v", "old")]])] "stripe_orders"
      ["id"] ["id", "v"] [[("id", "a"), ("v", "new")]] =
      ([("Stripe", [[("id", "a"), ("v", "old")]])], 0) ∧
    ("old" : String) ≠ "new" :=
  ⟨rfl, by simp⟩

/-- Claim C5, amended: on the relational backend the DO-UPDATE makes the
first stored row with the batch row's key carry exactly the newer row's
values at every key/data column (superseded whole); on the flat backend
the previously stored rows are all kept unchanged and no appended row
carries an already-stored key — the older write wins there. -/
theorem newer_write_wins_only_relational :
    (∀ (t : List PgRow) (cc dc : List String) (r : Row),
      (cc.map (getCol r)).all (fun v => v.isSome) = true →
      (∃ sr ∈ t, pgKey cc sr = cc.map (getCol r)) →
      ∃ t2 sr2, pgUpsert t cc dc [r] = .ok (t2, 1) ∧
        t2.find? (fun x => pgKey cc x == cc.map (getCol r)) = some sr2 ∧
        ∀ c ∈ cc ++ dc, pgread sr2 c = getCol r c) ∧
    (∀ (doc : Doc) (table : String) (cc dc : List String) (rows : List Row)
        (E : List Row),
      cc ⊆ dc → docGet doc (tabNameOf table) = some E →
      ∃ new, docGet ((sheetsUpsert doc table cc dc rows).1) (tabNameOf table) =
          some (E ++ new) ∧ ∀ x ∈ new, rowKey cc x ∉ E.map (rowKey cc)) :=
  ⟨fun _ _ _ _ hall hconf => pgUpsert_overwrite hall hconf,
   fun _ _ _ _ _ _ hsub hdg => sheetsUpsert_keeps_existing hsub hdg⟩

/-- Witness for C5 at a concrete stored row and newer batch row. -/
theorem newer_write_wins_only_relational_witness :
    (∃ t2 sr2, pgUpsert [[("id", some "a"), ("v", some "old")]] ["id"] ["id", "v"]
        [[("id", "a"), ("v", "new")]] = .ok (t2, 1) ∧
      t2.find? (fun x => pgKey ["id"] x ==
        ["id"].map (getCol [("id", "a"), ("v", "new")])) = some sr2 ∧
      ∀ c ∈ ["id"] ++ ["id", "v"], pgread sr2 c = getCol [("id", "a"), ("v", "new")] c) ∧
    (∃ new, docGet ((sheetsUpsert [("Stripe", [[("id", "a"), ("v", "old")]])]
        "stripe_orders" ["id"] ["id", "v"] [[("id", "a"), ("v", "new")]]).1)
        (tabNameOf "stripe_orders") =
        some ([[("id", "a"), ("v", "old")]] ++ new) ∧
      ∀ x ∈ new, rowKey ["id"] x ∉ [[("id", "a"), ("v", "old")]].map (rowKey ["id"])) :=
  ⟨newer_write_wins_only_relational.1 [[("id", some "a"), ("v", some "old")]]
      ["id"] ["id", "v"] [("id", "a"), ("v", "new")] (by decide) (by decide),
   newer_write_wins_only_relational.2 [("Stripe", [[("id", "a"), ("v", "old")]])]
      "stripe_orders" ["id"] ["id", "v"] [[("id", "a"), ("v", "new")]]
      [[("id", "a"), ("v", "old")]]
      (by intro x hx; rw [List.mem_singleton] at hx; exact hx ▸ List.mem_cons_self _ _)
      rfl⟩

/-- Claim C6, counterexample: the missing-credential result is exactly the
same value the orchestrator produces for a caught thrown error with the
same message, and it carries the ok:false failure flag — it is not a
disabled indicator distinct from an error. -/
theorem disabled_result_equals_error_result :
    etlStripe ⟨none, none, none, none⟩ (fun _ => .ok ⟨true, some 0, none⟩) =
      .ok (caught (.error "Missing STRIPE_SECRET_KEY")) ∧
    (caught (.error "Missing STRIPE_SECRET_KEY")).ok = false :=
  ⟨rfl, rfl⟩

/-- Claim C6, amended: with required credentials absent, the client
returns (rather than throws) a result naming the missing configuration,
so it cannot abort sibling sources; but that result has `ok := false`
like any failed source — it is not distinct in shape from an error. -/
theorem config_missing_returns_ok_false :
    (∀ (env : Env) (pipeline : String → Except String EtlResult),
      env.STRIPE_SECRET_KEY = none →
      etlStripe env pipeline = .ok ⟨false, none, some "Missing STRIPE_SECRET_KEY"⟩) ∧
    (∀ (env : Env) (pipeline : String → String → String → Except String EtlResult),
      env.STEAM_PUBLISHER_KEY = none ∨ env.STEAM_SALES_API_URL = none ∨
        env.STEAM_APP_ID = none →
      etlSteamSalesApi env pipeline =
        .ok ⟨false, none, some "Steam Sales API disabled or missing env variables"⟩) := by
  constructor
  · intro env pipeline h
    simp [etlStripe, h]
  · intro env pipeline h
    cases env with
    | mk sk pk su ai =>
      cases pk <;> cases su <;> cases ai <;>
        first
          | rfl
          | (rcases h with h | h | h <;> cases h)

/-- Witness for C6 at concrete environments. -/
theorem config_missing_returns_ok_false_witness :
    etlStripe ⟨none, some "k", some "u", some "1"⟩ (fun _ => .ok ⟨true, some 5, none⟩) =
      .ok ⟨false, none, some "Missing STRIPE_SECRET_KEY"⟩ ∧
    etlSteamSalesApi ⟨some "sk", none, some "u", some "1"⟩
      (fun _ _ _ => .ok ⟨true, some 5, none⟩) =
      .ok ⟨false, none, some "Steam Sales API disabled or missing env variables"⟩ :=
  ⟨config_missing_returns_ok_false.1 ⟨none, some "k", some "u", some "1"⟩
      (fun _ => .ok ⟨true, some 5, none⟩) rfl,
   config_missing_returns_ok_false.2 ⟨some "sk", none, some "u", some "1"⟩
      (fun _ _ _ => .ok ⟨true, some 5, none⟩) (Or.inl rfl)⟩

/-- Claim C7: with no explicit since/until, `parseRange` returns
`until = now` and `since = until - 30 days` exactly, hence
`until - span ≤ since < until` and `since ≤ until`. -/
theorem parse_range_default_window (now : Int) :
    parseRange none none now = ⟨now - 30 * MS_PER_DAY, now⟩ ∧
    (parseRange none none now).untilUtc - 30 * MS_PER_DAY ≤
      (parseRange none none now).sinceUtc ∧
    (parseRange none none now).sinceUtc < (parseRange none none now).untilUtc ∧
    (parseRange none none now).sinceUtc ≤ (parseRange none none now).untilUtc := by
  refine ⟨rfl, ?_, ?_, ?_⟩ <;> simp [parseRange, MS_PER_DAY]

/-- Claim C8: in both the Meta and TikTok normalizers, cpc is null when
clicks = 0 and spend/clicks when clicks > 0; cpm is null when
impressions = 0 and spend/impressions·1000 when impressions > 0, as
exact quotients. -/
theorem derived_metric_edge_cases (m : MetaRaw) (tk : TikTokRaw) :
    (m.clicks = 0 → (metaNormalize m).cpc = none) ∧
    (0 < m.clicks → (metaNormalize m).cpc = some (m.spend / m.clicks)) ∧
    (m.impressions = 0 → (metaNormalize m).cpm = none) ∧
    (0 < m.impressions →
      (metaNormalize m).cpm = some (m.spend / m.impressions * 1000)) ∧
    (tk.clicks = 0 → (tiktokNormalize tk).cpc = none) ∧
    (0 < tk.clicks → (tiktokNormalize tk).cpc = some (tk.spend / tk.clicks)) ∧
    (tk.impressions = 0 → (tiktokNormalize tk).cpm = none) ∧
    (0 < tk.impressions →
      (tiktokNormalize tk).cpm = some (tk.spend / tk.impressions * 1000)) := by
  refine ⟨?_, ?_, ?_, ?_, ?_, ?_, ?_, ?_⟩ <;> intro h <;>
    simp [metaNormalize, tiktokNormalize, h]

/-- Witness for C8, including the spec's example spend=100, clicks=10 →
cpc = 10. -/
theorem derived_metric_edge_cases_witness :
    (metaNormalize ⟨none, none, none, none, 0, 0, 50⟩).cpc = none ∧
    (metaNormalize ⟨none, none, none, none, 1000, 10, 100⟩).cpc = some 10 ∧
    (tiktokNormalize ⟨none, none, none, none, 0, 5, 50, 0, 0⟩).cpm = none ∧
    (tiktokNormalize ⟨none, none, none, none, 2000, 5, 50, 0, 0⟩).cpm = some 25 := by
  refine ⟨?_, ?_, ?_, ?_⟩
  · exact (derived_metric_edge_cases ⟨none, none, none, none, 0, 0, 50⟩
      ⟨none, none, none, none, 0, 0, 0, 0, 0⟩).1 rfl
  · have h := (derived_metric_edge_cases ⟨none, none, none, none, 1000, 10, 100⟩
      ⟨none, none, none, none, 0, 0, 0, 0, 0⟩).2.1 (by norm_num)
    rw [h]
    norm_num
  · exact (derived_metric_edge_cases ⟨none, none, none, none, 0, 0, 0⟩
      ⟨none, none, none, none, 0, 5, 50, 0, 0⟩).2.2.2.2.2.2.1 rfl
  · have h := (derived_metric_edge_cases ⟨none, none, none, none, 0, 0, 0⟩
      ⟨none, none, none, none, 2000, 5, 50, 0, 0⟩).2.2.2.2.2.2.2 (by norm_num)
    rw [h]
    norm_num

/-- Claim C9: the Steam per-date detail loop continues (with the
highwater mark set to `max_id`) exactly when `max_id` is strictly greater
than the current mark and the page is non-empty; the visited highwater
marks are strictly increasing; and when all `max_id` values are bounded
by `B` the loop terminates within `B + 1` iterations. -/
theorem steam_highwater_loop_terminates {α : Type} (resp : Nat → SteamResp α)
    (B : Nat) (hbound : ∀ h, (resp h).maxId ≤ B) :
    (∀ (fuel hw : Nat) (l : List Nat), steamDateLoop resp fuel hw = some l →
      List.Chain' (· < ·) l) ∧
    (∃ l, steamDateLoop resp (B + 1) 0 = some l ∧ List.Chain' (· < ·) l) ∧
    (∀ (fuel hw : Nat), steamDateLoop resp (fuel + 1) hw =
      if hw < (resp hw).maxId ∧ (resp hw).results.isEmpty = false then
        (steamDateLoop resp fuel (resp hw).maxId).map (fun l => hw :: l)
      else some [hw]) := by
  refine ⟨fun fuel hw l h => steamDateLoop_chain resp fuel h, ?_, ?_⟩
  · have hs := steamDateLoop_terminates resp hbound (B + 1) 0 (by omega)
    cases hloop : steamDateLoop resp (B + 1) 0 with
    | none => rw [hloop] at hs; cases hs
    | some l => exact ⟨l, rfl, steamDateLoop_chain resp (B + 1) hloop⟩
  · intro fuel hw
    have hiff : ((decide (hw < (resp hw).maxId) && !(resp hw).results.isEmpty) = true) ↔
        (hw < (resp hw).maxId ∧ (resp hw).results.isEmpty = false) := by
      simp
    simp only [steamDateLoop]
    exact if_congr hiff rfl rfl

/-- Witness for C9: a constant response with max_id 3 makes the loop
visit marks 0 then 3 and stop. -/
theorem steam_highwater_loop_terminates_witness :
    ∃ l, steamDateLoop (fun _ => (⟨[()], 3⟩ : SteamResp Unit)) (3 + 1) 0 = some l ∧
      List.Chain' (· < ·) l :=
  (steam_highwater_loop_terminates (fun _ => (⟨[()], 3⟩ : SteamResp Unit)) 3
    (fun _ => le_refl 3)).2.1

end WL
